import Mathlib

/-!
# Verification of `SimpleClientSideCache` (src/simple-cache.js)

A shallow embedding of the Redis client-side cache implemented in
`src/simple-cache.js`, together with proofs (and refutations) of the
specification's claims about it.

Conventions of the embedding:
* JavaScript strings (and Buffers, which the source only ever measures with
  `.length` and stringifies with `.toString()`/`join`) are modelled as
  `List Char`.
* A JavaScript `Map` is modelled as an insertion-ordered association list with
  unique keys (`mapGet`/`mapSet`/`mapDelete`/`mapHas`), a JavaScript `Set` as
  an insertion-ordered duplicate-free list (`setAdd`).
* Number-to-string conversion performed by `Array.prototype.join` on the
  length entries is modelled by `dec`, decimal notation, most significant
  digit first.
-/

namespace SimpleCache

/-- The decimal digit character for `d < 10` (`'0'` has code 48). -/
def digitChar (d : Nat) : Char := Char.ofNat (48 + d)

/-- Fuel-driven decimal printer: `decAux fuel n` is the decimal notation of
`n`, most significant digit first, provided `n < fuel`. -/
def decAux (fuel : Nat) (n : Nat) : List Char :=
  match fuel with
  | 0 => []
  | fuel + 1 =>
    if n < 10 then [digitChar n]
    else decAux fuel (n / 10) ++ [digitChar (n % 10)]

/-- Decimal notation of a natural number, as JavaScript's number-to-string
conversion produces it for the (nonnegative integral) `.length` values. -/
def dec (n : Nat) : List Char := decAux (n + 1) n

/-- Parse a digit string back to a number (base 10, most significant first). -/
def val (l : List Char) : Nat := l.foldl (fun a c => 10 * a + (c.toNat - 48)) 0

theorem digitChar_toNat {d : Nat} (h : d < 10) : (digitChar d).toNat = 48 + d := by
  interval_cases d <;> decide

theorem digitChar_ne_sep {d : Nat} (h : d < 10) : digitChar d ≠ '_' := by
  interval_cases d <;> decide

theorem val_append_digit (l : List Char) (c : Char) :
    val (l ++ [c]) = 10 * val l + (c.toNat - 48) := by
  simp [val, List.foldl_append]

theorem decAux_val : ∀ fuel n, n < fuel → val (decAux fuel n) = n := by
  intro fuel
  induction fuel with
  | zero => intro n h; omega
  | succ fuel ih =>
    intro n h
    by_cases h10 : n < 10
    · simp only [decAux, if_pos h10, val, List.foldl]
      rw [digitChar_toNat h10]
      omega
    · have hdiv : n / 10 < fuel := by
        have := Nat.div_lt_self (by omega : 0 < n) (by omega : 1 < 10)
        omega
      simp only [decAux, if_neg h10]
      rw [val_append_digit, ih _ hdiv, digitChar_toNat (Nat.mod_lt n (by omega))]
      omega

theorem decAux_ne_nil : ∀ fuel n, n < fuel → decAux fuel n ≠ [] := by
  intro fuel
  induction fuel with
  | zero => intro n h; omega
  | succ fuel ih =>
    intro n h
    by_cases h10 : n < 10
    · simp [decAux, if_pos h10]
    · simp [decAux, if_neg h10]

theorem decAux_no_sep : ∀ fuel n, n < fuel → '_' ∉ decAux fuel n := by
  intro fuel
  induction fuel with
  | zero => intro n h; omega
  | succ fuel ih =>
    intro n h
    by_cases h10 : n < 10
    · simp only [decAux, if_pos h10, List.mem_singleton]
      intro hc
      exact digitChar_ne_sep h10 hc.symm
    · have hdiv : n / 10 < fuel := by
        have := Nat.div_lt_self (by omega : 0 < n) (by omega : 1 < 10)
        omega
      simp only [decAux, if_neg h10, List.mem_append, List.mem_singleton]
      rintro (hc | hc)
      · exact ih _ hdiv hc
      · exact digitChar_ne_sep (Nat.mod_lt n (by omega)) hc.symm

theorem val_dec (n : Nat) : val (dec n) = n :=
  decAux_val (n + 1) n (Nat.lt_succ_self n)

theorem dec_ne_nil (n : Nat) : dec n ≠ [] :=
  decAux_ne_nil (n + 1) n (Nat.lt_succ_self n)

theorem dec_no_sep (n : Nat) : '_' ∉ dec n :=
  decAux_no_sep (n + 1) n (Nat.lt_succ_self n)

theorem dec_inj {a b : Nat} (h : dec a = dec b) : a = b := by
  have := val_dec a
  rw [h, val_dec b] at this
  omega

/-- `Array.prototype.join('_')`: concatenate the pieces with `'_'` between
consecutive pieces (and produce `[]` on the empty array). -/
def joinSep : List (List Char) → List Char
  | [] => []
  | [x] => x
  | x :: y :: rest => x ++ '_' :: joinSep (y :: rest)

/-- `generateCacheKey(redisArgs)` from src/simple-cache.js: build the array
`[len(a1), …, len(an), a1, …, an]` (`tmp[i] = redisArgs[i].length`,
`tmp[i + n] = redisArgs[i]`) and `join('_')` it, the numeric lengths being
rendered in decimal. -/
def generateCacheKey (redisArgs : List (List Char)) : List Char :=
  joinSep (redisArgs.map (fun a => dec a.length) ++ redisArgs)

/-- `enc2 us t` prefixes `t` with the blocks of `us`, each terminated by the
separator: `u1 ++ '_' :: u2 ++ '_' :: … ++ '_' :: t`. -/
def enc2 : List (List Char) → List Char → List Char
  | [], t => t
  | u :: us, t => u ++ '_' :: enc2 us t

/-- A length block of the encoding: nonempty and free of the separator. -/
def GoodBlock (u : List Char) : Prop := u ≠ [] ∧ '_' ∉ u

theorem joinSep_append_eq_enc2 :
    ∀ us xs, xs ≠ [] → joinSep (us ++ xs) = enc2 us (joinSep xs) := by
  intro us
  induction us with
  | nil => intro xs _; simp [enc2]
  | cons u us ih =>
    intro xs hxs
    match us, xs with
    | [], x :: xs => simp [joinSep, enc2]
    | u2 :: us, xs =>
      calc joinSep ((u :: u2 :: us) ++ xs)
          = u ++ '_' :: joinSep ((u2 :: us) ++ xs) := rfl
        _ = u ++ '_' :: enc2 (u2 :: us) (joinSep xs) := by rw [ih xs hxs]
        _ = enc2 (u :: u2 :: us) (joinSep xs) := rfl

theorem enc2_length_le (us : List (List Char)) (t : List Char) :
    t.length ≤ (enc2 us t).length := by
  induction us with
  | nil => simp [enc2]
  | cons u us ih => simp [enc2]; omega

/-- Two separator-free blocks followed by a separator and equal: the blocks
and the remainders agree. -/
theorem sep_block_eq :
    ∀ u v : List Char, ∀ r1 r2 : List Char, '_' ∉ u → '_' ∉ v →
      u ++ '_' :: r1 = v ++ '_' :: r2 → u = v ∧ r1 = r2 := by
  intro u
  induction u with
  | nil =>
    intro v r1 r2 _ hv h
    match v with
    | [] => simpa using h
    | c :: v =>
      exfalso
      have hc : c = '_' := by
        have := congrArg (fun l => l.head?) h
        simpa using this.symm
      exact hv (by simp [hc])
  | cons c u ih =>
    intro v r1 r2 hu hv h
    match v with
    | [] =>
      exfalso
      have hc : c = '_' := by
        have := congrArg (fun l => l.head?) h
        simpa using this
      exact hu (by simp [hc])
    | d :: v =>
      have hcd : c = d := by
        have := congrArg (fun l => l.head?) h
        simpa using this
      have htail : u ++ '_' :: r1 = v ++ '_' :: r2 := by
        have := congrArg List.tail h
        simpa using this
      obtain ⟨h1, h2⟩ := ih v r1 r2 (fun hm => hu (by simp [hm])) (fun hm => hv (by simp [hm])) htail
      exact ⟨by rw [hcd, h1], h2⟩

/-- Core disambiguation lemma: two block-prefixed strings are equal and the
block counts are tied to the tail lengths by the parsed values, then the
block lists and the tails coincide. -/
theorem enc2_eq_of_balanced :
    ∀ us vs : List (List Char), ∀ t1 t2 : List Char,
      (∀ u ∈ us, GoodBlock u) → (∀ v ∈ vs, GoodBlock v) →
      enc2 us t1 = enc2 vs t2 →
      t1.length + (vs.map (fun v => val v + 1)).sum
        = t2.length + (us.map (fun u => val u + 1)).sum →
      us = vs ∧ t1 = t2 := by
  intro us
  induction us with
  | nil =>
    intro vs t1 t2 _ hvs h hlen
    match vs with
    | [] => exact ⟨rfl, h⟩
    | v :: vs =>
      exfalso
      simp only [enc2] at h
      have h1 := congrArg List.length h
      simp only [List.length_append, List.length_cons] at h1
      have h2 := enc2_length_le vs t2
      have hv : v ≠ [] := (hvs v (by simp)).1
      have hvlen : 1 ≤ v.length := by
        cases v with
        | nil => exact absurd rfl hv
        | cons c v => simp
      simp only [List.map_cons, List.sum_cons, List.map_nil, List.sum_nil] at hlen
      omega
  | cons u us ih =>
    intro vs t1 t2 hus hvs h hlen
    match vs with
    | [] =>
      exfalso
      simp only [enc2] at h
      have h1 := congrArg List.length h
      simp only [List.length_append, List.length_cons] at h1
      have h2 := enc2_length_le us t1
      have hu : u ≠ [] := (hus u (by simp)).1
      have hulen : 1 ≤ u.length := by
        cases u with
        | nil => exact absurd rfl hu
        | cons c u => simp
      simp only [List.map_cons, List.sum_cons, List.map_nil, List.sum_nil] at hlen
      omega
    | v :: vs =>
      simp only [enc2] at h
      obtain ⟨huv, htail⟩ :=
        sep_block_eq u v (enc2 us t1) (enc2 vs t2) (hus u (by simp)).2 (hvs v (by simp)).2 h
      simp only [List.map_cons, List.sum_cons] at hlen
      have hval : val u = val v := by rw [huv]
      obtain ⟨h1, h2⟩ := ih vs t1 t2 (fun x hx => hus x (by simp [hx]))
        (fun x hx => hvs x (by simp [hx])) htail (by omega)
      exact ⟨by rw [huv, h1], h2⟩

theorem joinSep_length :
    ∀ xs : List (List Char), xs ≠ [] →
      (joinSep xs).length + 1 = (xs.map (fun a => a.length + 1)).sum := by
  intro xs
  induction xs with
  | nil => intro h; exact absurd rfl h
  | cons x xs ih =>
    intro _
    match xs with
    | [] => simp [joinSep]
    | y :: rest =>
      have : joinSep (x :: y :: rest) = x ++ '_' :: joinSep (y :: rest) := rfl
      rw [this]
      have := ih (by simp)
      simp only [List.map_cons, List.sum_cons] at *
      simp only [List.length_append, List.length_cons]
      omega

theorem joinSep_eq_of_lengths :
    ∀ xs ys : List (List Char),
      xs.map List.length = ys.map List.length → joinSep xs = joinSep ys → xs = ys := by
  intro xs
  induction xs with
  | nil =>
    intro ys hmap _
    match ys with
    | [] => rfl
    | y :: ys => simp at hmap
  | cons x xs ih =>
    intro ys hmap hjoin
    match ys with
    | [] => simp at hmap
    | y :: ys =>
      simp only [List.map_cons, List.cons.injEq] at hmap
      obtain ⟨hxy, hmap⟩ := hmap
      match xs, ys with
      | [], [] =>
        simpa [joinSep] using hjoin
      | [], y2 :: ys => simp at hmap
      | x2 :: xs, [] => simp at hmap
      | x2 :: xs, y2 :: ys =>
        have hx : joinSep (x :: x2 :: xs) = x ++ '_' :: joinSep (x2 :: xs) := rfl
        have hy : joinSep (y :: y2 :: ys) = y ++ '_' :: joinSep (y2 :: ys) := rfl
        rw [hx, hy] at hjoin
        obtain ⟨h1, h2⟩ := List.append_inj hjoin hxy
        have h3 : joinSep (x2 :: xs) = joinSep (y2 :: ys) := by
          have := congrArg List.tail h2
          simpa using this
        have := ih (y2 :: ys) hmap h3
        rw [h1, this]

/-- `generateCacheKey` of a nonempty argument list starts with a decimal
length block, so it is nonempty. -/
theorem generateCacheKey_ne_nil (x : List Char) (xs : List (List Char)) :
    generateCacheKey (x :: xs) ≠ [] := by
  have hne : dec x.length ≠ [] := dec_ne_nil _
  unfold generateCacheKey
  cases h : (x :: xs).map (fun a => dec a.length) ++ (x :: xs) with
  | nil => simp at h
  | cons b rest =>
    have hb : b = dec x.length := by
      simp only [List.map_cons, List.cons_append, List.cons.injEq] at h
      exact h.1.symm
    cases rest with
    | nil => simpa [joinSep, hb] using hne
    | cons c rest =>
      have hstep : joinSep (b :: c :: rest) = b ++ '_' :: joinSep (c :: rest) := rfl
      rw [hstep, hb]
      simp

/-- Injectivity of `generateCacheKey` on ordered argument lists. -/
theorem generateCacheKey_inj :
    ∀ xs ys : List (List Char), generateCacheKey xs = generateCacheKey ys → xs = ys := by
  intro xs ys h
  match xs, ys with
  | [], [] => rfl
  | [], y :: ys => exact absurd h.symm (generateCacheKey_ne_nil y ys)
  | x :: xs, [] => exact absurd h (generateCacheKey_ne_nil x xs)
  | x :: xs, y :: ys =>
    set as := x :: xs with has
    set bs := y :: ys with hbs
    have hane : as ≠ [] := by simp [has]
    have hbne : bs ≠ [] := by simp [hbs]
    have ha : generateCacheKey as = enc2 (as.map (fun a => dec a.length)) (joinSep as) :=
      joinSep_append_eq_enc2 _ as hane
    have hb : generateCacheKey bs = enc2 (bs.map (fun a => dec a.length)) (joinSep bs) :=
      joinSep_append_eq_enc2 _ bs hbne
    rw [ha, hb] at h
    have hgood : ∀ (l : List (List Char)), ∀ u ∈ l.map (fun a => dec a.length), GoodBlock u := by
      intro l u hu
      simp only [List.mem_map] at hu
      obtain ⟨a, _, rfl⟩ := hu
      exact ⟨dec_ne_nil _, dec_no_sep _⟩
    have hsum : ∀ (l : List (List Char)),
        ((l.map (fun a => dec a.length)).map (fun u => val u + 1)).sum
          = (l.map (fun a => a.length + 1)).sum := by
      intro l
      rw [List.map_map]
      congr 1
      apply List.map_congr_left
      intro a _
      simp [Function.comp, val_dec]
    have hlen : (joinSep as).length + ((bs.map (fun a => dec a.length)).map (fun u => val u + 1)).sum
        = (joinSep bs).length + ((as.map (fun a => dec a.length)).map (fun u => val u + 1)).sum := by
      have h1 := joinSep_length as hane
      have h2 := joinSep_length bs hbne
      rw [hsum as, hsum bs]
      omega
    obtain ⟨hblocks, htails⟩ :=
      enc2_eq_of_balanced _ _ _ _ (hgood as) (hgood bs) h hlen
    have hlens : as.map List.length = bs.map List.length := by
      have h1 := congrArg (fun l => l.map val) hblocks
      simp only [List.map_map] at h1
      have : ∀ (l : List (List Char)),
          l.map (val ∘ fun a => dec a.length) = l.map List.length := by
        intro l
        apply List.map_congr_left
        intro a _
        simp [Function.comp, val_dec]
      rw [this as, this bs] at h1
      exact h1
    exact joinSep_eq_of_lengths as bs hlens htails

/-! ## JavaScript `Map` and `Set` primitives

A `Map` is an insertion-ordered association list with unique keys; `set`
overwrites in place, otherwise appends; `delete` removes the entry of the key
(stated as a filter, which agrees with the single-entry removal on the
unique-key lists all reachable states consist of). A `Set` is an
insertion-ordered duplicate-free list. -/

/-- `Map.prototype.get`. -/
def mapGet {α β : Type} [DecidableEq α] : List (α × β) → α → Option β
  | [], _ => none
  | (k, v) :: rest, k2 => if k = k2 then some v else mapGet rest k2

/-- `Map.prototype.has`. -/
def mapHas {α β : Type} [DecidableEq α] (m : List (α × β)) (k : α) : Bool :=
  (mapGet m k).isSome

/-- `Map.prototype.set`. -/
def mapSet {α β : Type} [DecidableEq α] : List (α × β) → α → β → List (α × β)
  | [], k, v => [(k, v)]
  | (k1, v1) :: rest, k, v =>
    if k1 = k then (k, v) :: rest else (k1, v1) :: mapSet rest k v

/-- `Map.prototype.delete` (keys are unique, so removing every entry of the
key equals removing the one entry). -/
def mapDelete {α β : Type} [DecidableEq α] (m : List (α × β)) (k : α) : List (α × β) :=
  m.filter (fun p => decide (p.1 ≠ k))

/-- `Set.prototype.add`. -/
def setAdd {α : Type} [DecidableEq α] (s : List α) (x : α) : List α :=
  if x ∈ s then s else s ++ [x]

/-! ## The cache state (class `SimpleClientSideCache`) -/

/-- The statistics record created by `_initializeStatistics` when
`enableStat` is set. `totalLoadTime` accumulates the elapsed-time values the
orchestrator measures; they are modelled as abstract `Nat` durations. -/
structure Stats where
  hitCount : Nat
  missCount : Nat
  loadSuccessCount : Nat
  loadFailureCount : Nat
  totalLoadTime : Nat
  evictionCount : Nat
deriving DecidableEq, Repr

/-- `{hitCount: 0, missCount: 0, loadSuccessCount: 0, loadFailureCount: 0,
totalLoadTime: 0, evictionCount: 0}`. -/
def zeroStats : Stats := ⟨0, 0, 0, 0, 0, 0⟩

/-- The mutable state of a `SimpleClientSideCache` instance: the forward map
`cache`, the reverse index `keyToCacheKeys`, and `_stats` (present exactly
when the instance was constructed with `enableStat`; the no-op increment
closures of the disabled configuration correspond to `Option.map` over
`none`). -/
structure CacheState (V : Type) where
  cache : List (List Char × V)
  keyToCacheKeys : List (List Char × List (List Char))
  statsOpt : Option Stats
deriving DecidableEq

/-- `new SimpleClientSideCache({enableStat})`: empty maps, statistics present
iff enabled. -/
def initState (V : Type) (enableStat : Bool) : CacheState V :=
  { cache := [], keyToCacheKeys := [], statsOpt := if enableStat then some zeroStats else none }

/-- `this._incHit()`. -/
def incHit {V : Type} (s : CacheState V) : CacheState V :=
  { s with statsOpt := s.statsOpt.map (fun st => { st with hitCount := st.hitCount + 1 }) }

/-- `this._incMiss()`. -/
def incMiss {V : Type} (s : CacheState V) : CacheState V :=
  { s with statsOpt := s.statsOpt.map (fun st => { st with missCount := st.missCount + 1 }) }

/-- `this._incLoadSuccess()`. -/
def incLoadSuccess {V : Type} (s : CacheState V) : CacheState V :=
  { s with statsOpt := s.statsOpt.map (fun st => { st with loadSuccessCount := st.loadSuccessCount + 1 }) }

/-- `this._incLoadFailure()`. -/
def incLoadFailure {V : Type} (s : CacheState V) : CacheState V :=
  { s with statsOpt := s.statsOpt.map (fun st => { st with loadFailureCount := st.loadFailureCount + 1 }) }

/-- `this._addLoadTime(time)`. -/
def addLoadTime {V : Type} (t : Nat) (s : CacheState V) : CacheState V :=
  { s with statsOpt := s.statsOpt.map (fun st => { st with totalLoadTime := st.totalLoadTime + t }) }

/-- `this._incEviction(count)`. -/
def incEviction {V : Type} (n : Nat) (s : CacheState V) : CacheState V :=
  { s with statsOpt := s.statsOpt.map (fun st => { st with evictionCount := st.evictionCount + n }) }

/-- The `parser` argument of `handleCache`: the ordered raw command
arguments and the source keys the command touches. -/
structure Parser where
  redisArgs : List (List Char)
  keys : List (List Char)

deriving instance DecidableEq for Except

/-- The outcome of one `handleCache` call: the value returned (or error
propagated), the state afterwards, and whether the remote execution
function `fn` was invoked. -/
structure HandleResult (V E : Type) where
  result : Except E V
  state : CacheState V
  fnCalled : Bool
deriving DecidableEq

/-- The reverse-index registration step of `handleCache` for one source key:
`if (!this.keyToCacheKeys.has(keyStr)) this.keyToCacheKeys.set(keyStr, new Set());
this.keyToCacheKeys.get(keyStr).add(cacheKey)`. -/
def addKeyIndex (m : List (List Char × List (List Char))) (cacheKey : List Char)
    (key : List Char) : List (List Char × List (List Char)) :=
  let m1 := if mapHas m key then m else mapSet m key []
  mapSet m1 key (setAdd ((mapGet m1 key).getD []) cacheKey)

/-- `handleCache(client, parser, fn, transformReply, typeMapping)`.
The remote call and its transform are modelled by `fn : Except E R` (the
settled outcome of `await fn()`) and `transformReply : R → V`; the source's
`transformReply ? transformReply(reply, …) : reply` is the instance
`transformReply := id`. `elapsed` is the measured load duration.
`structuredClone` is the identity on the immutable values of this model
(the heap-level model below accounts for aliasing). -/
def handleCache {V E R : Type} (s : CacheState V) (p : Parser) (fn : Except E R)
    (transformReply : R → V) (elapsed : Nat) : HandleResult V E :=
  let cacheKey := generateCacheKey p.redisArgs
  match mapGet s.cache cacheKey with
  | some v => ⟨Except.ok v, incHit s, false⟩
  | none =>
    let s1 := incMiss s
    match fn with
    | Except.error err => ⟨Except.error err, addLoadTime elapsed (incLoadFailure s1), true⟩
    | Except.ok reply =>
      let s2 := addLoadTime elapsed (incLoadSuccess s1)
      let value := transformReply reply
      let s3 := { s2 with cache := mapSet s2.cache cacheKey value }
      let s4 := { s3 with
        keyToCacheKeys := p.keys.foldl (fun m k => addKeyIndex m cacheKey k) s3.keyToCacheKeys }
      ⟨Except.ok value, s4, true⟩

/-- `invalidate(key)`: `none` models the `null` global flush. Returns the
new state and the list of emitted `invalidate` events. -/
def invalidate {V : Type} (s : CacheState V) (key : Option (List Char)) :
    CacheState V × List (Option (List Char)) :=
  match key with
  | none =>
    let evictedCount := s.cache.length
    (incEviction evictedCount { s with cache := [], keyToCacheKeys := [] }, [none])
  | some k =>
    match mapGet s.keyToCacheKeys k with
    | some cacheKeys =>
      let s1 := { s with
        cache := cacheKeys.foldl (fun c ck => mapDelete c ck) s.cache,
        keyToCacheKeys := mapDelete s.keyToCacheKeys k }
      (incEviction cacheKeys.length s1, [some k])
    | none => (s, [some k])

/-- `clear()`. -/
def clear {V : Type} (s : CacheState V) : CacheState V :=
  { s with cache := [], keyToCacheKeys := [] }

/-- `onError()` — clears the cache. -/
def onError {V : Type} (s : CacheState V) : CacheState V := clear s

/-- `onClose()` — clears the cache. -/
def onClose {V : Type} (s : CacheState V) : CacheState V := clear s

/-- `stats()`: a copy of `this._stats` when present, the all-zero record
otherwise. -/
def stats {V : Type} (s : CacheState V) : Stats := s.statsOpt.getD zeroStats

/-- `size()`. -/
def size {V : Type} (s : CacheState V) : Nat := s.cache.length

/-! ## Constructor options (claim C9)

The constructor is
`constructor(options = {}) { super(); this.cache = new Map();
this.keyToCacheKeys = new Map(); this._initializeStatistics(options.enableStat); }`.
It reads only `options.enableStat`; any `CacheMapClass` / `KeyMapClass`
members of the options object (the pluggable map implementations the
repository's tests, changelog and examples describe) are never read, no
validation of them occurs, and the two maps are always native maps. `μ`
stands for whatever object is supplied as a would-be map class. -/

/-- The options object passed to the constructor, with the pluggable
map-class members the repository's tests supply. -/
structure ConstructorOptions (μ : Type) where
  enableStat : Bool := false
  CacheMapClass : Option μ := none
  KeyMapClass : Option μ := none

/-- The constructor: it cannot fail (`Except.error` is never produced) and
ignores every option except `enableStat`. -/
def construct (V μ : Type) (options : ConstructorOptions μ) : Except String (CacheState V) :=
  Except.ok (initState V options.enableStat)

/-! ## Lemmas about the map and set primitives -/

section MapLemmas

variable {α β : Type} [DecidableEq α]

theorem mapGet_mapSet_self (m : List (α × β)) (k : α) (v : β) :
    mapGet (mapSet m k v) k = some v := by
  induction m with
  | nil => simp [mapSet, mapGet]
  | cons p rest ih =>
    obtain ⟨k1, v1⟩ := p
    by_cases h : k1 = k
    · simp [mapSet, mapGet, h]
    · simp [mapSet, mapGet, h, ih]

theorem mapGet_mapSet_ne (m : List (α × β)) (k k2 : α) (v : β) (h : k2 ≠ k) :
    mapGet (mapSet m k v) k2 = mapGet m k2 := by
  have hk : ¬k = k2 := fun hh => h hh.symm
  induction m with
  | nil => simp [mapSet, mapGet, hk]
  | cons p rest ih =>
    obtain ⟨k1, v1⟩ := p
    simp only [mapSet]
    by_cases h1 : k1 = k
    · rw [if_pos h1]
      simp only [mapGet]
      rw [if_neg hk, if_neg (h1 ▸ hk)]
    · rw [if_neg h1]
      simp only [mapGet]
      by_cases h2 : k1 = k2
      · rw [if_pos h2, if_pos h2]
      · rw [if_neg h2, if_neg h2, ih]

theorem mapDelete_cons (k1 : α) (v1 : β) (rest : List (α × β)) (k : α) :
    mapDelete ((k1, v1) :: rest) k
      = if k1 = k then mapDelete rest k else (k1, v1) :: mapDelete rest k := by
  unfold mapDelete
  rw [List.filter_cons]
  by_cases h : k1 = k
  · simp [h]
  · simp [h]

theorem mapGet_mapDelete_self (m : List (α × β)) (k : α) :
    mapGet (mapDelete m k) k = none := by
  induction m with
  | nil => simp [mapDelete, mapGet]
  | cons p rest ih =>
    obtain ⟨k1, v1⟩ := p
    rw [mapDelete_cons]
    by_cases h : k1 = k
    · rw [if_pos h]
      exact ih
    · rw [if_neg h]
      simp only [mapGet]
      rw [if_neg h]
      exact ih

theorem mapGet_mapDelete_ne (m : List (α × β)) (k k2 : α) (h : k2 ≠ k) :
    mapGet (mapDelete m k) k2 = mapGet m k2 := by
  induction m with
  | nil => simp [mapDelete, mapGet]
  | cons p rest ih =>
    obtain ⟨k1, v1⟩ := p
    rw [mapDelete_cons]
    by_cases h1 : k1 = k
    · rw [if_pos h1]
      have hne : ¬k1 = k2 := by
        rw [h1]; exact fun hh => h hh.symm
      rw [ih]
      simp only [mapGet]
      rw [if_neg hne]
    · rw [if_neg h1]
      simp only [mapGet]
      by_cases h2 : k1 = k2
      · rw [if_pos h2, if_pos h2]
      · rw [if_neg h2, if_neg h2]
        exact ih

theorem mapGet_foldl_mapDelete (cks : List α) (c : List (α × β)) (ck : α) :
    mapGet (cks.foldl (fun acc k => mapDelete acc k) c) ck
      = if ck ∈ cks then none else mapGet c ck := by
  induction cks generalizing c with
  | nil => simp
  | cons d rest ih =>
    simp only [List.foldl_cons]
    rw [ih]
    by_cases hmem : ck ∈ rest
    · simp [hmem]
    · by_cases hd : ck = d
      · subst hd
        simp [hmem, mapGet_mapDelete_self]
      · simp [hmem, hd, mapGet_mapDelete_ne c d ck hd]

theorem mem_setAdd_self (s : List α) (x : α) : x ∈ setAdd s x := by
  by_cases h : x ∈ s <;> simp [setAdd, h]

theorem mem_setAdd_of_mem (s : List α) (x y : α) (h : y ∈ s) : y ∈ setAdd s x := by
  by_cases hx : x ∈ s <;> simp [setAdd, hx, h]

end MapLemmas

theorem mapGet_addKeyIndex_self (m : List (List Char × List (List Char)))
    (ck key : List Char) :
    mapGet (addKeyIndex m ck key) key = some (setAdd ((mapGet m key).getD []) ck) := by
  unfold addKeyIndex mapHas
  cases hg : mapGet m key with
  | none =>
    simp only [hg, Option.isSome_none, Bool.false_eq_true, if_false, Option.getD_none]
    rw [mapGet_mapSet_self, mapGet_mapSet_self]
    rfl
  | some s =>
    simp only [hg, Option.isSome_some, if_true, Option.getD_some]
    rw [mapGet_mapSet_self]

theorem mapGet_addKeyIndex_ne (m : List (List Char × List (List Char)))
    (ck key key2 : List Char) (h : key2 ≠ key) :
    mapGet (addKeyIndex m ck key) key2 = mapGet m key2 := by
  unfold addKeyIndex mapHas
  cases hg : mapGet m key with
  | none =>
    simp only [hg, Option.isSome_none, Bool.false_eq_true, if_false]
    rw [mapGet_mapSet_ne _ _ _ _ h, mapGet_mapSet_ne _ _ _ _ h]
  | some s =>
    simp only [hg, Option.isSome_some, if_true]
    rw [mapGet_mapSet_ne _ _ _ _ h]

/-- The reverse-index registration loop of `handleCache`
(`for (const key of parser.keys) { … }`). -/
def registerKeys (m : List (List Char × List (List Char))) (ck : List Char)
    (keys : List (List Char)) : List (List Char × List (List Char)) :=
  keys.foldl (fun acc k => addKeyIndex acc ck k) m

theorem registerKeys_nil (m : List (List Char × List (List Char))) (ck : List Char) :
    registerKeys m ck [] = m := rfl

theorem registerKeys_cons (m : List (List Char × List (List Char))) (ck key : List Char)
    (rest : List (List Char)) :
    registerKeys m ck (key :: rest) = registerKeys (addKeyIndex m ck key) ck rest := rfl

theorem mapGet_registerKeys_not_mem (m : List (List Char × List (List Char)))
    (ck : List Char) (keys : List (List Char)) (k : List Char) (h : k ∉ keys) :
    mapGet (registerKeys m ck keys) k = mapGet m k := by
  induction keys generalizing m with
  | nil => rfl
  | cons key rest ih =>
    simp only [List.mem_cons, not_or] at h
    rw [registerKeys_cons, ih _ h.2, mapGet_addKeyIndex_ne _ _ _ _ h.1]

theorem mapGet_registerKeys_mem (m : List (List Char × List (List Char)))
    (ck : List Char) (keys : List (List Char)) (k : List Char) (h : k ∈ keys) :
    ∃ s, mapGet (registerKeys m ck keys) k = some s ∧ ck ∈ s := by
  induction keys generalizing m with
  | nil => simp at h
  | cons key rest ih =>
    rw [registerKeys_cons]
    by_cases hmem : k ∈ rest
    · exact ih _ hmem
    · have hk : k = key := by
        rcases List.mem_cons.mp h with h1 | h1
        · exact h1
        · exact absurd h1 hmem
      subst hk
      rw [mapGet_registerKeys_not_mem _ _ _ _ hmem]
      exact ⟨_, mapGet_addKeyIndex_self m ck k, mem_setAdd_self _ _⟩

theorem mapGet_registerKeys_preserves (m : List (List Char × List (List Char)))
    (ck : List Char) (keys : List (List Char)) (k : List Char) (s : List (List Char))
    (ck2 : List Char) (hget : mapGet m k = some s) (hmem : ck2 ∈ s) :
    ∃ s2, mapGet (registerKeys m ck keys) k = some s2 ∧ ck2 ∈ s2 := by
  induction keys generalizing m s with
  | nil => exact ⟨s, hget, hmem⟩
  | cons key rest ih =>
    rw [registerKeys_cons]
    by_cases hk : k = key
    · subst hk
      apply ih (addKeyIndex m ck k) (setAdd ((mapGet m k).getD []) ck)
      · exact mapGet_addKeyIndex_self m ck k
      · exact mem_setAdd_of_mem _ _ _ (by simp [hget, hmem])
    · apply ih (addKeyIndex m ck key) s
      · rw [mapGet_addKeyIndex_ne _ _ _ _ (fun hh => hk hh)]
        exact hget
      · exact hmem

/-! ## Characterisations of the three `handleCache` paths and of `invalidate` -/

theorem handleCache_hit {V E R : Type} (s : CacheState V) (p : Parser) (fn : Except E R)
    (tr : R → V) (t : Nat) (v : V) (h : mapGet s.cache (generateCacheKey p.redisArgs) = some v) :
    handleCache s p fn tr t = ⟨Except.ok v, incHit s, false⟩ := by
  simp [handleCache, h]

theorem handleCache_miss_error {V E R : Type} (s : CacheState V) (p : Parser) (e : E)
    (tr : R → V) (t : Nat) (h : mapGet s.cache (generateCacheKey p.redisArgs) = none) :
    handleCache s p (Except.error e) tr t
      = ⟨Except.error e, addLoadTime t (incLoadFailure (incMiss s)), true⟩ := by
  simp [handleCache, h]

theorem handleCache_miss_ok {V E R : Type} (s : CacheState V) (p : Parser) (r : R)
    (tr : R → V) (t : Nat) (h : mapGet s.cache (generateCacheKey p.redisArgs) = none) :
    handleCache s p (Except.ok r : Except E R) tr t
      = ⟨Except.ok (tr r),
         { cache := mapSet s.cache (generateCacheKey p.redisArgs) (tr r),
           keyToCacheKeys := registerKeys s.keyToCacheKeys (generateCacheKey p.redisArgs) p.keys,
           statsOpt := (addLoadTime t (incLoadSuccess (incMiss s))).statsOpt },
         true⟩ := by
  simp [handleCache, h, registerKeys, addLoadTime, incLoadSuccess, incMiss]

theorem invalidate_none_eq {V : Type} (s : CacheState V) :
    invalidate s none
      = (incEviction s.cache.length { s with cache := [], keyToCacheKeys := [] }, [none]) := rfl

theorem invalidate_some_found {V : Type} (s : CacheState V) (k : List Char)
    (cks : List (List Char)) (h : mapGet s.keyToCacheKeys k = some cks) :
    invalidate s (some k)
      = (incEviction cks.length
          { s with cache := cks.foldl (fun c ck => mapDelete c ck) s.cache,
                   keyToCacheKeys := mapDelete s.keyToCacheKeys k }, [some k]) := by
  simp [invalidate, h]

theorem invalidate_some_missing {V : Type} (s : CacheState V) (k : List Char)
    (h : mapGet s.keyToCacheKeys k = none) :
    invalidate s (some k) = (s, [some k]) := by
  simp [invalidate, h]

/-! ## Operation traces

One `Op` is one externally triggered interaction with the cache instance:
a `handleCache` call (with the settled outcome of its remote execution),
an `invalidate` notification, or one of the lifecycle calls. -/

inductive Op (V E R : Type) where
  | handle (p : Parser) (fn : Except E R) (transformReply : R → V) (elapsed : Nat)
  | invalidate (key : Option (List Char))
  | clear
  | onError
  | onClose

/-- The state after one operation. -/
def step {V E R : Type} (s : CacheState V) : Op V E R → CacheState V
  | Op.handle p fn tr t => (handleCache s p fn tr t).state
  | Op.invalidate k => (SimpleCache.invalidate s k).1
  | Op.clear => SimpleCache.clear s
  | Op.onError => SimpleCache.onError s
  | Op.onClose => SimpleCache.onClose s

/-- The state after a sequence of operations. -/
def run {V E R : Type} (s : CacheState V) (ops : List (Op V E R)) : CacheState V :=
  ops.foldl step s

theorem run_nil {V E R : Type} (s : CacheState V) : run s ([] : List (Op V E R)) = s := rfl

theorem run_cons {V E R : Type} (s : CacheState V) (op : Op V E R) (ops : List (Op V E R)) :
    run s (op :: ops) = run (step s op) ops := rfl

/-! ## Instrumented semantics for reverse-index consistency (claim C1)

`gstep` runs the real transition and additionally maintains a ghost map
`own` recording, for every result-id currently in the forward map, the
source keys that were supplied at the read-miss insertion that put it
there. The ghost map is pure bookkeeping over the trace; the cache itself
stores no such information. -/

/-- One instrumented step. -/
def gstep {V E R : Type} (sg : CacheState V × List (List Char × List (List Char)))
    (op : Op V E R) : CacheState V × List (List Char × List (List Char)) :=
  (step sg.1 op,
   match op with
   | Op.handle p fn _ _ =>
     match mapGet sg.1.cache (generateCacheKey p.redisArgs), fn with
     | some _, _ => sg.2
     | none, Except.error _ => sg.2
     | none, Except.ok _ => mapSet sg.2 (generateCacheKey p.redisArgs) p.keys
   | Op.invalidate none => []
   | Op.invalidate (some k) =>
     match mapGet sg.1.keyToCacheKeys k with
     | some cks => cks.foldl (fun g ck => mapDelete g ck) sg.2
     | none => sg.2
   | Op.clear => []
   | Op.onError => []
   | Op.onClose => [])

/-- Instrumented run. -/
def grun {V E R : Type} (sg : CacheState V × List (List Char × List (List Char)))
    (ops : List (Op V E R)) : CacheState V × List (List Char × List (List Char)) :=
  ops.foldl gstep sg

/-- Forward consistency: every cached result-id is recorded in the ghost
map, and every recorded result-id is still cached with each of its recorded
source keys indexing it in `keyToCacheKeys`. -/
def ForwardConsistent {V : Type} (s : CacheState V)
    (own : List (List Char × List (List Char))) : Prop :=
  (∀ ck, mapHas s.cache ck = true → mapHas own ck = true) ∧
  (∀ ck ks, mapGet own ck = some ks →
    mapHas s.cache ck = true ∧
    ∀ k ∈ ks, ∃ deps, mapGet s.keyToCacheKeys k = some deps ∧ ck ∈ deps)

theorem forwardConsistent_empty {V : Type} (so : Option Stats) :
    ForwardConsistent ({ cache := [], keyToCacheKeys := [], statsOpt := so } : CacheState V)
      ([] : List (List Char × List (List Char))) := by
  constructor
  · intro ck hck
    simp [mapHas, mapGet] at hck
  · intro ck ks hks
    simp [mapGet] at hks

theorem gstep_preserves {V E R : Type}
    (s : CacheState V) (g : List (List Char × List (List Char)))
    (h : ForwardConsistent s g) (op : Op V E R) :
    ForwardConsistent (gstep (s, g) op).1 (gstep (s, g) op).2 := by
  cases op with
  | handle p fn tr t =>
    cases hck : mapGet s.cache (generateCacheKey p.redisArgs) with
    | some v =>
      have e1 : gstep (s, g) (Op.handle p fn tr t) = (incHit s, g) := by
        cases fn <;> simp [gstep, step, handleCache_hit _ _ _ _ _ _ hck, hck]
      rw [e1]
      exact h
    | none =>
      cases fn with
      | error e =>
        have e1 : gstep (s, g) (Op.handle p (Except.error e) tr t)
            = (addLoadTime t (incLoadFailure (incMiss s)), g) := by
          simp [gstep, step, handleCache_miss_error _ _ _ _ _ hck, hck]
        rw [e1]
        exact h
      | ok r =>
        have e1 : gstep (s, g) (Op.handle p (Except.ok r : Except E R) tr t)
            = ({ cache := mapSet s.cache (generateCacheKey p.redisArgs) (tr r),
                 keyToCacheKeys :=
                   registerKeys s.keyToCacheKeys (generateCacheKey p.redisArgs) p.keys,
                 statsOpt := (addLoadTime t (incLoadSuccess (incMiss s))).statsOpt },
               mapSet g (generateCacheKey p.redisArgs) p.keys) := by
          simp [gstep, step, handleCache_miss_ok _ _ _ _ _ hck, hck]
        rw [e1]
        set ck := generateCacheKey p.redisArgs with hckdef
        constructor
        · intro ck2 hck2
          by_cases heq : ck2 = ck
          · subst heq
            unfold mapHas
            rw [mapGet_mapSet_self]
            rfl
          · unfold mapHas at hck2 ⊢
            rw [mapGet_mapSet_ne _ _ _ _ heq] at hck2
            rw [mapGet_mapSet_ne _ _ _ _ heq]
            exact h.1 ck2 hck2
        · intro ck2 ks hks
          by_cases heq : ck2 = ck
          · subst heq
            rw [mapGet_mapSet_self] at hks
            obtain rfl : ks = p.keys := by
              injection hks with hh
              exact hh.symm
            refine ⟨?_, ?_⟩
            · unfold mapHas
              rw [mapGet_mapSet_self]
              rfl
            · intro k hk
              exact mapGet_registerKeys_mem _ _ _ _ hk
          · rw [mapGet_mapSet_ne _ _ _ _ heq] at hks
            obtain ⟨hhas, hkeys⟩ := h.2 ck2 ks hks
            refine ⟨?_, ?_⟩
            · unfold mapHas at hhas ⊢
              rw [mapGet_mapSet_ne _ _ _ _ heq]
              exact hhas
            · intro k hk
              obtain ⟨deps, hdeps, hmem⟩ := hkeys k hk
              exact mapGet_registerKeys_preserves _ _ _ _ _ _ hdeps hmem
  | invalidate key =>
    cases key with
    | none =>
      have e1 : gstep (s, g) (Op.invalidate none : Op V E R)
          = (incEviction s.cache.length { s with cache := [], keyToCacheKeys := [] }, []) := by
        simp [gstep, step, invalidate_none_eq]
      rw [e1]
      exact forwardConsistent_empty _
    | some k =>
      cases hk : mapGet s.keyToCacheKeys k with
      | none =>
        have e1 : gstep (s, g) (Op.invalidate (some k) : Op V E R) = (s, g) := by
          simp [gstep, step, invalidate_some_missing _ _ hk, hk]
        rw [e1]
        exact h
      | some cks =>
        have e1 : gstep (s, g) (Op.invalidate (some k) : Op V E R)
            = (incEviction cks.length
                { s with cache := cks.foldl (fun c ck => mapDelete c ck) s.cache,
                         keyToCacheKeys := mapDelete s.keyToCacheKeys k },
               cks.foldl (fun gg ck => mapDelete gg ck) g) := by
          simp [gstep, step, invalidate_some_found _ _ _ hk, hk]
        rw [e1]
        constructor
        · intro ck2 hck2
          unfold mapHas at hck2 ⊢
          rw [show (incEviction cks.length
                { s with cache := cks.foldl (fun c ck => mapDelete c ck) s.cache,
                         keyToCacheKeys := mapDelete s.keyToCacheKeys k }).cache
              = cks.foldl (fun c ck => mapDelete c ck) s.cache from rfl] at hck2
          rw [mapGet_foldl_mapDelete] at hck2
          by_cases hmem : ck2 ∈ cks
          · rw [if_pos hmem] at hck2
            simp at hck2
          · rw [if_neg hmem] at hck2
            rw [mapGet_foldl_mapDelete, if_neg hmem]
            exact h.1 ck2 hck2
        · intro ck2 ks hks
          rw [mapGet_foldl_mapDelete] at hks
          by_cases hmem : ck2 ∈ cks
          · rw [if_pos hmem] at hks
            exact absurd hks (by simp)
          · rw [if_neg hmem] at hks
            obtain ⟨hhas, hkeys⟩ := h.2 ck2 ks hks
            refine ⟨?_, ?_⟩
            · unfold mapHas at hhas ⊢
              rw [show (incEviction cks.length
                    { s with cache := cks.foldl (fun c ck => mapDelete c ck) s.cache,
                             keyToCacheKeys := mapDelete s.keyToCacheKeys k }).cache
                  = cks.foldl (fun c ck => mapDelete c ck) s.cache from rfl]
              rw [mapGet_foldl_mapDelete, if_neg hmem]
              exact hhas
            · intro k2 hk2
              obtain ⟨deps, hdeps, hmemdeps⟩ := hkeys k2 hk2
              have hk2ne : k2 ≠ k := by
                intro hkk
                subst hkk
                rw [hk] at hdeps
                obtain rfl : cks = deps := by injection hdeps
                exact hmem hmemdeps
              refine ⟨deps, ?_, hmemdeps⟩
              rw [show (incEviction cks.length
                    { s with cache := cks.foldl (fun c ck => mapDelete c ck) s.cache,
                             keyToCacheKeys := mapDelete s.keyToCacheKeys k }).keyToCacheKeys
                  = mapDelete s.keyToCacheKeys k from rfl]
              rw [mapGet_mapDelete_ne _ _ _ hk2ne]
              exact hdeps
  | clear =>
    have e1 : gstep (s, g) (Op.clear : Op V E R)
        = ({ s with cache := [], keyToCacheKeys := [] }, []) := by
      simp [gstep, step, SimpleCache.clear]
    rw [e1]
    exact forwardConsistent_empty _
  | onError =>
    have e1 : gstep (s, g) (Op.onError : Op V E R)
        = ({ s with cache := [], keyToCacheKeys := [] }, []) := by
      simp [gstep, step, SimpleCache.onError, SimpleCache.clear]
    rw [e1]
    exact forwardConsistent_empty _
  | onClose =>
    have e1 : gstep (s, g) (Op.onClose : Op V E R)
        = ({ s with cache := [], keyToCacheKeys := [] }, []) := by
      simp [gstep, step, SimpleCache.onClose, SimpleCache.clear]
    rw [e1]
    exact forwardConsistent_empty _

theorem grun_preserves {V E R : Type} (ops : List (Op V E R))
    (sg : CacheState V × List (List Char × List (List Char)))
    (h : ForwardConsistent sg.1 sg.2) :
    ForwardConsistent (grun sg ops).1 (grun sg ops).2 := by
  induction ops generalizing sg with
  | nil => exact h
  | cons op rest ih =>
    have hstep : ForwardConsistent (gstep sg op).1 (gstep sg op).2 := by
      obtain ⟨s, g⟩ := sg
      exact gstep_preserves s g h op
    exact ih (gstep sg op) hstep

/-! ## Independent event recounts (claim C5)

These fold over a trace with the real transition function but recompute,
without looking at the `statsOpt` field, how many hits and misses occur and
which eviction amounts `invalidate` charges. -/

/-- Number of `handleCache` calls in the trace that find their cache key
present (cache hits). -/
def countHits {V E R : Type} (s : CacheState V) : List (Op V E R) → Nat
  | [] => 0
  | op :: rest =>
    (match op with
     | Op.handle p _ _ _ =>
       if mapHas s.cache (generateCacheKey p.redisArgs) then 1 else 0
     | _ => 0) + countHits (step s op) rest

/-- Number of `handleCache` calls in the trace that miss. -/
def countMisses {V E R : Type} (s : CacheState V) : List (Op V E R) → Nat
  | [] => 0
  | op :: rest =>
    (match op with
     | Op.handle p _ _ _ =>
       if mapHas s.cache (generateCacheKey p.redisArgs) then 0 else 1
     | _ => 0) + countMisses (step s op) rest

/-- The eviction amounts `invalidate` charges: the forward-map size for a
global flush, the size of the reverse-index set for a specific key. -/
def countEvictions {V E R : Type} (s : CacheState V) : List (Op V E R) → Nat
  | [] => 0
  | op :: rest =>
    (match op with
     | Op.invalidate none => s.cache.length
     | Op.invalidate (some k) =>
       match mapGet s.keyToCacheKeys k with
       | some cks => cks.length
       | none => 0
     | _ => 0) + countEvictions (step s op) rest

/-- Number of entries actually removed from the forward map by the
`invalidate` calls of the trace. -/
def removedByInvalidations {V E R : Type} (s : CacheState V) : List (Op V E R) → Nat
  | [] => 0
  | op :: rest =>
    (match op with
     | Op.invalidate k => s.cache.length - ((SimpleCache.invalidate s k).1).cache.length
     | _ => 0) + removedByInvalidations (step s op) rest

theorem step_statsOpt_none {V E R : Type} (s : CacheState V) (op : Op V E R)
    (h : s.statsOpt = none) : (step s op).statsOpt = none := by
  cases op with
  | handle p fn tr t =>
    cases hck : mapGet s.cache (generateCacheKey p.redisArgs) with
    | some v => simp [step, handleCache_hit _ _ _ _ _ _ hck, incHit, h]
    | none =>
      cases fn with
      | error e =>
        simp [step, handleCache_miss_error _ _ _ _ _ hck, addLoadTime, incLoadFailure, incMiss, h]
      | ok r =>
        simp [step, handleCache_miss_ok _ _ _ _ _ hck, addLoadTime, incLoadSuccess, incMiss, h]
  | invalidate key =>
    cases key with
    | none => simp [step, invalidate_none_eq, incEviction, h]
    | some k =>
      cases hk : mapGet s.keyToCacheKeys k with
      | some cks => simp [step, invalidate_some_found _ _ _ hk, incEviction, h]
      | none => simp [step, invalidate_some_missing _ _ hk, h]
  | clear => simpa [step, SimpleCache.clear] using h
  | onError => simpa [step, SimpleCache.onError, SimpleCache.clear] using h
  | onClose => simpa [step, SimpleCache.onClose, SimpleCache.clear] using h

theorem run_statsOpt_none {V E R : Type} (ops : List (Op V E R)) (s : CacheState V)
    (h : s.statsOpt = none) : (run s ops).statsOpt = none := by
  induction ops generalizing s with
  | nil => exact h
  | cons op rest ih => exact ih _ (step_statsOpt_none s op h)

theorem step_statsOpt_some {V E R : Type} (s : CacheState V) (op : Op V E R) (st : Stats)
    (h : s.statsOpt = some st) :
    ∃ st2, (step s op).statsOpt = some st2 ∧
      st2.hitCount = st.hitCount + countHits s [op] ∧
      st2.missCount = st.missCount + countMisses s [op] ∧
      st2.evictionCount = st.evictionCount + countEvictions s [op] := by
  cases op with
  | handle p fn tr t =>
    cases hck : mapGet s.cache (generateCacheKey p.redisArgs) with
    | some v =>
      refine ⟨{ st with hitCount := st.hitCount + 1 }, ?_, ?_, ?_, ?_⟩
      · simp [step, handleCache_hit _ _ _ _ _ _ hck, incHit, h]
      all_goals simp [countHits, countMisses, countEvictions, mapHas, hck]
    | none =>
      cases fn with
      | error e =>
        refine ⟨{ st with missCount := st.missCount + 1,
                          loadFailureCount := st.loadFailureCount + 1,
                          totalLoadTime := st.totalLoadTime + t }, ?_, ?_, ?_, ?_⟩
        · simp [step, handleCache_miss_error _ _ _ _ _ hck, addLoadTime, incLoadFailure,
            incMiss, h]
        all_goals simp [countHits, countMisses, countEvictions, mapHas, hck]
      | ok r =>
        refine ⟨{ st with missCount := st.missCount + 1,
                          loadSuccessCount := st.loadSuccessCount + 1,
                          totalLoadTime := st.totalLoadTime + t }, ?_, ?_, ?_, ?_⟩
        · simp [step, handleCache_miss_ok _ _ _ _ _ hck, addLoadTime, incLoadSuccess,
            incMiss, h]
        all_goals simp [countHits, countMisses, countEvictions, mapHas, hck]
  | invalidate key =>
    cases key with
    | none =>
      refine ⟨{ st with evictionCount := st.evictionCount + s.cache.length }, ?_, ?_, ?_, ?_⟩
      · simp [step, invalidate_none_eq, incEviction, h]
      all_goals simp [countHits, countMisses, countEvictions]
    | some k =>
      cases hk : mapGet s.keyToCacheKeys k with
      | some cks =>
        refine ⟨{ st with evictionCount := st.evictionCount + cks.length }, ?_, ?_, ?_, ?_⟩
        · simp [step, invalidate_some_found _ _ _ hk, incEviction, h]
        all_goals simp [countHits, countMisses, countEvictions, hk]
      | none =>
        refine ⟨st, ?_, ?_, ?_, ?_⟩
        · simp [step, invalidate_some_missing _ _ hk, h]
        all_goals simp [countHits, countMisses, countEvictions, hk]
  | clear =>
    refine ⟨st, by simpa [step, SimpleCache.clear] using h, ?_, ?_, ?_⟩ <;>
      simp [countHits, countMisses, countEvictions]
  | onError =>
    refine ⟨st, by simpa [step, SimpleCache.onError, SimpleCache.clear] using h, ?_, ?_, ?_⟩ <;>
      simp [countHits, countMisses, countEvictions]
  | onClose =>
    refine ⟨st, by simpa [step, SimpleCache.onClose, SimpleCache.clear] using h, ?_, ?_, ?_⟩ <;>
      simp [countHits, countMisses, countEvictions]

theorem run_statsOpt_some {V E R : Type} (ops : List (Op V E R)) (s : CacheState V) (st : Stats)
    (h : s.statsOpt = some st) :
    ∃ st2, (run s ops).statsOpt = some st2 ∧
      st2.hitCount = st.hitCount + countHits s ops ∧
      st2.missCount = st.missCount + countMisses s ops ∧
      st2.evictionCount = st.evictionCount + countEvictions s ops := by
  induction ops generalizing s st with
  | nil => exact ⟨st, h, by simp [countHits], by simp [countMisses], by simp [countEvictions]⟩
  | cons op rest ih =>
    obtain ⟨st1, h1, hh1, hm1, he1⟩ := step_statsOpt_some s op st h
    obtain ⟨st2, h2, hh2, hm2, he2⟩ := ih (step s op) st1 h1
    refine ⟨st2, h2, ?_, ?_, ?_⟩
    · rw [hh2, hh1]
      simp only [countHits]
      simp [countHits] at hh1
      cases op <;> simp [countHits] <;> omega
    · rw [hm2, hm1]
      cases op <;> simp [countMisses] <;> omega
    · rw [he2, he1]
      cases op <;> simp [countEvictions] <;> omega

/-! ## Repeated `handleCache` calls (claim C3) -/

/-- Run a sequence of `handleCache` calls, collecting for each its returned
result and whether the remote execution function was invoked. -/
def runHandles {V E R : Type} (s : CacheState V) :
    List (Parser × Except E R × (R → V) × Nat) → List (Except E V × Bool) × CacheState V
  | [] => ([], s)
  | (p, fn, tr, t) :: rest =>
    let hr := handleCache s p fn tr t
    let pr := runHandles hr.state rest
    ((hr.result, hr.fnCalled) :: pr.1, pr.2)

theorem runHandles_all_hits {V E R : Type}
    (calls : List (Parser × Except E R × (R → V) × Nat)) (s : CacheState V)
    (ck : List Char) (v : V) (hget : mapGet s.cache ck = some v)
    (hargs : ∀ c ∈ calls, generateCacheKey c.1.redisArgs = ck) :
    (runHandles s calls).1 = calls.map (fun _ => (Except.ok v, false)) := by
  induction calls generalizing s with
  | nil => rfl
  | cons c rest ih =>
    obtain ⟨p, fn, tr, t⟩ := c
    have hpk : generateCacheKey p.redisArgs = ck :=
      hargs (p, fn, tr, t) (List.mem_cons_self _ _)
    have hc : mapGet s.cache (generateCacheKey p.redisArgs) = some v := by rw [hpk]; exact hget
    have hhit := handleCache_hit s p fn tr t v hc
    simp only [runHandles, hhit]
    have hrest := ih (incHit s) (by simpa [incHit] using hget)
      (fun c2 hcm => hargs c2 (List.mem_cons_of_mem _ hcm))
    simp [hrest]

/-! ## Heap-level model of `structuredClone` (claim C7)

The pure model above treats values as immutable, which cannot express the
aliasing question of claim C7. Here values live in an explicit heap of
mutable objects with identity. `structuredClone(value)` is modelled as
copying the object graph to fresh addresses: every node of the copy sits at
an address `≥ next` (the allocation frontier), so the copy shares no node
with anything previously stored — which is exactly the property of the
source's `structuredClone` at stake in C7. (The model copies the whole
graph rather than only the part reachable from `value`; the extra copies
are unreachable garbage and observationally irrelevant.) -/

/-- A JavaScript value slot: a primitive or a reference to a heap object. -/
inductive JSRef where
  | prim (n : Nat)
  | addr (a : Nat)
deriving DecidableEq, Repr

/-- A heap: address → object, an object being a field table (field names as
numbers) of value slots. -/
abbrev Heap := List (Nat × List (Nat × JSRef))

/-- Relocate a reference by `d`. -/
def shiftRef (d : Nat) : JSRef → JSRef
  | JSRef.prim n => JSRef.prim n
  | JSRef.addr a => JSRef.addr (a + d)

/-- The relocated copy of a whole heap. -/
def cloneHeap (h : Heap) (d : Nat) : Heap :=
  h.map (fun e => (e.1 + d, e.2.map (fun fld => (fld.1, shiftRef d fld.2))))

/-- `structuredClone(r)` at allocation frontier `next`: the copy of the
object graph relocated to fresh addresses, the extended heap, and the new
frontier. -/
def structuredCloneH (h : Heap) (next : Nat) (r : JSRef) : JSRef × Heap × Nat :=
  (shiftRef next r, h ++ cloneHeap h next, next + next)

/-- Follow a path of field names from a reference. -/
def readPath (h : Heap) : JSRef → List Nat → Option JSRef
  | r, [] => some r
  | JSRef.prim _, _ :: _ => none
  | JSRef.addr a, f :: p =>
    ((mapGet h a).bind (fun fields => mapGet fields f)).bind
      (fun r2 => readPath h r2 p)

/-- The observable shape at the end of a path: `none` if the path does not
resolve, `some none` for an object node, `some (some n)` for a primitive.
Two references are deeply equal when they observe equally at every path. -/
def obsAt (h : Heap) (r : JSRef) (p : List Nat) : Option (Option Nat) :=
  (readPath h r p).map (fun rr =>
    match rr with
    | JSRef.prim n => some n
    | JSRef.addr _ => none)

/-- `obj.f = w` — in-place mutation of the object at address `a`. -/
def writeField (h : Heap) (a f : Nat) (w : JSRef) : Heap :=
  h.map (fun e => if e.1 = a then (e.1, mapSet e.2 f w) else e)

/-- A reference stays below the allocation frontier. -/
def RefBound (n : Nat) : JSRef → Prop
  | JSRef.prim _ => True
  | JSRef.addr a => a < n

instance (n : Nat) (r : JSRef) : Decidable (RefBound n r) :=
  match r with
  | JSRef.prim _ => isTrue trivial
  | JSRef.addr a => inferInstanceAs (Decidable (a < n))

/-- Heap well-formedness at frontier `n`: all entry addresses and all
references stored in fields are below `n`. -/
def HeapWF (h : Heap) (n : Nat) : Prop :=
  ∀ e ∈ h, e.1 < n ∧ ∀ fld ∈ e.2, RefBound n fld.2

/-- The cache state of the heap-level model: the forward map stores
references into the heap (`this.cache.set(cacheKey, value)` stores the
reference, not a copy), plus the reverse index, the heap and the
allocation frontier. -/
structure HeapCacheState where
  cache : List (List Char × JSRef)
  keyToCacheKeys : List (List Char × List (List Char))
  heap : Heap
  next : Nat

/-- `handleCache` in the heap-level model (statistics omitted): on a hit,
return `structuredClone` of the stored reference; on a miss, store the
reply reference in the forward map, register the reverse index, and return
`structuredClone` of it. Returns the value handed to the caller, the new
state, and whether the remote execution function ran. -/
def handleCacheHeap (s : HeapCacheState) (p : Parser) (reply : JSRef) :
    JSRef × HeapCacheState × Bool :=
  let cacheKey := generateCacheKey p.redisArgs
  match mapGet s.cache cacheKey with
  | some v =>
    let c := structuredCloneH s.heap s.next v
    (c.1, { s with heap := c.2.1, next := c.2.2 }, false)
  | none =>
    let value := reply
    let c := structuredCloneH s.heap s.next value
    (c.1,
     { cache := mapSet s.cache cacheKey value,
       keyToCacheKeys := registerKeys s.keyToCacheKeys cacheKey p.keys,
       heap := c.2.1, next := c.2.2 }, true)

/-! ### Heap lemmas -/

theorem readPath_nil (h : Heap) (r : JSRef) : readPath h r [] = some r := by
  cases r <;> rfl

theorem readPath_cons_addr (h : Heap) (a f : Nat) (p : List Nat) :
    readPath h (JSRef.addr a) (f :: p)
      = ((mapGet h a).bind (fun fields => mapGet fields f)).bind
          (fun r2 => readPath h r2 p) := rfl

theorem mapGet_mem {α β : Type} [DecidableEq α] (m : List (α × β)) (k : α) (v : β)
    (h : mapGet m k = some v) : (k, v) ∈ m := by
  induction m with
  | nil => simp [mapGet] at h
  | cons p rest ih =>
    obtain ⟨k1, v1⟩ := p
    simp only [mapGet] at h
    by_cases hk : k1 = k
    · rw [if_pos hk] at h
      obtain rfl : v1 = v := by injection h
      subst hk
      exact List.mem_cons_self _ _
    · rw [if_neg hk] at h
      exact List.mem_cons_of_mem _ (ih h)

theorem mapGet_append_left_none {α β : Type} [DecidableEq α] (m1 m2 : List (α × β)) (k : α)
    (h : mapGet m1 k = none) : mapGet (m1 ++ m2) k = mapGet m2 k := by
  induction m1 with
  | nil => rfl
  | cons p rest ih =>
    obtain ⟨k1, v1⟩ := p
    simp only [mapGet] at h
    by_cases hk : k1 = k
    · rw [if_pos hk] at h
      exact absurd h (by simp)
    · rw [if_neg hk] at h
      simp only [List.cons_append, mapGet]
      rw [if_neg hk]
      exact ih h

theorem mapGet_append_left_some {α β : Type} [DecidableEq α] (m1 m2 : List (α × β)) (k : α)
    (v : β) (h : mapGet m1 k = some v) : mapGet (m1 ++ m2) k = some v := by
  induction m1 with
  | nil => simp [mapGet] at h
  | cons p rest ih =>
    obtain ⟨k1, v1⟩ := p
    simp only [mapGet] at h
    simp only [List.cons_append, mapGet]
    by_cases hk : k1 = k
    · rw [if_pos hk] at h
      rw [if_pos hk]
      exact h
    · rw [if_neg hk] at h
      rw [if_neg hk]
      exact ih h

theorem mapGet_none_of_ge {β : Type} (m : List (Nat × β)) (n k : Nat)
    (hdom : ∀ e ∈ m, e.1 < n) (hk : n ≤ k) : mapGet m k = none := by
  induction m with
  | nil => rfl
  | cons p rest ih =>
    obtain ⟨k1, v1⟩ := p
    have h1 : k1 < n := hdom (k1, v1) (List.mem_cons_self _ _)
    simp only [mapGet]
    rw [if_neg (by omega : ¬ k1 = k)]
    exact ih (fun e he => hdom e (List.mem_cons_of_mem _ he))

theorem mapGet_none_of_lt {β : Type} (m : List (Nat × β)) (n k : Nat)
    (hdom : ∀ e ∈ m, n ≤ e.1) (hk : k < n) : mapGet m k = none := by
  induction m with
  | nil => rfl
  | cons p rest ih =>
    obtain ⟨k1, v1⟩ := p
    have h1 : n ≤ k1 := hdom (k1, v1) (List.mem_cons_self _ _)
    simp only [mapGet]
    rw [if_neg (by omega : ¬ k1 = k)]
    exact ih (fun e he => hdom e (List.mem_cons_of_mem _ he))

theorem mapGet_cloneHeap_shifted (h : Heap) (n a : Nat) :
    mapGet (cloneHeap h n) (a + n)
      = (mapGet h a).map (fun fields => fields.map (fun fld => (fld.1, shiftRef n fld.2))) := by
  induction h with
  | nil => simp [cloneHeap, mapGet]
  | cons e rest ih =>
    obtain ⟨b, fs⟩ := e
    simp only [cloneHeap, List.map_cons, mapGet]
    by_cases hb : b = a
    · rw [if_pos (by omega : b + n = a + n), if_pos hb]
      rfl
    · rw [if_neg (by omega : ¬ b + n = a + n), if_neg hb]
      exact ih

theorem mapGet_cloneHeap_small (h : Heap) (n b : Nat) (hb : b < n) :
    mapGet (cloneHeap h n) b = none := by
  apply mapGet_none_of_lt _ n b _ hb
  intro e he
  simp only [cloneHeap, List.mem_map] at he
  obtain ⟨e0, _, rfl⟩ := he
  simp

theorem mapGet_map_shift (m : List (Nat × JSRef)) (n f : Nat) :
    mapGet (m.map (fun fld => (fld.1, shiftRef n fld.2))) f
      = (mapGet m f).map (shiftRef n) := by
  induction m with
  | nil => simp [mapGet]
  | cons e rest ih =>
    obtain ⟨f1, r1⟩ := e
    simp only [List.map_cons, mapGet]
    by_cases hf : f1 = f
    · rw [if_pos hf, if_pos hf]
      rfl
    · rw [if_neg hf, if_neg hf]
      exact ih

theorem writeField_cons (a1 : Nat) (fs1 : List (Nat × JSRef)) (rest : Heap) (a f : Nat)
    (w : JSRef) :
    writeField ((a1, fs1) :: rest) a f w
      = (if a1 = a then (a1, mapSet fs1 f w) else (a1, fs1)) :: writeField rest a f w := by
  unfold writeField
  simp only [List.map_cons]

theorem mapGet_writeField_ne (h : Heap) (a f : Nat) (w : JSRef) (b : Nat) (hb : b ≠ a) :
    mapGet (writeField h a f w) b = mapGet h b := by
  induction h with
  | nil => rfl
  | cons e rest ih =>
    obtain ⟨a1, fs1⟩ := e
    rw [writeField_cons]
    by_cases ha1 : a1 = a
    · rw [if_pos ha1]
      simp only [mapGet]
      have hne : ¬ a1 = b := by omega
      rw [if_neg hne, if_neg hne]
      exact ih
    · rw [if_neg ha1]
      simp only [mapGet]
      by_cases hb1 : a1 = b
      · rw [if_pos hb1, if_pos hb1]
      · rw [if_neg hb1, if_neg hb1]
        exact ih

/-- Reading below the frontier only consults the heap below the frontier:
two heaps that agree there give the same path reads from a bounded
reference. -/
theorem readPath_agree (n : Nat) (h h2 : Heap)
    (hagree : ∀ b, b < n → mapGet h2 b = mapGet h b)
    (hwf : HeapWF h n) :
    ∀ p r, RefBound n r → readPath h2 r p = readPath h r p := by
  intro p
  induction p with
  | nil => intro r _; rw [readPath_nil, readPath_nil]
  | cons f p ih =>
    intro r hr
    cases r with
    | prim m => rfl
    | addr a =>
      have ha : a < n := hr
      rw [readPath_cons_addr, readPath_cons_addr, hagree a ha]
      cases hget : mapGet h a with
      | none => rfl
      | some fields =>
        cases hf : mapGet fields f with
        | none => simp [hf]
        | some r2 =>
          have hmem := mapGet_mem h a fields hget
          have hfmem := mapGet_mem fields f r2 hf
          have hr2 : RefBound n r2 := (hwf _ hmem).2 (f, r2) hfmem
          simp only [hf, Option.some_bind, Option.bind_some]
          exact ih r2 hr2

/-- Path reads through the relocated copy mirror path reads of the
original. -/
theorem readPath_clone (h : Heap) (n : Nat)
    (hdom : ∀ e ∈ h, e.1 < n) :
    ∀ p r, readPath (h ++ cloneHeap h n) (shiftRef n r) p
      = (readPath h r p).map (shiftRef n) := by
  intro p
  induction p with
  | nil => intro r; rw [readPath_nil]; cases r <;> rfl
  | cons f p ih =>
    intro r
    cases r with
    | prim m => rfl
    | addr a =>
      rw [show shiftRef n (JSRef.addr a) = JSRef.addr (a + n) from rfl]
      rw [readPath_cons_addr, readPath_cons_addr]
      rw [mapGet_append_left_none _ _ _ (mapGet_none_of_ge h n (a + n) hdom (by omega))]
      rw [mapGet_cloneHeap_shifted]
      cases hget : mapGet h a with
      | none => rfl
      | some fields =>
        have hred : ((Option.map
              (fun fs => List.map (fun fld => (fld.1, shiftRef n fld.2)) fs)
              (some fields)).bind fun fs => mapGet fs f)
            = mapGet (fields.map (fun fld => (fld.1, shiftRef n fld.2))) f := rfl
        have hred2 : ((some fields).bind fun fs => mapGet fs f) = mapGet fields f := rfl
        rw [hred, hred2, mapGet_map_shift]
        cases hf : mapGet fields f with
        | none => rfl
        | some r2 =>
          exact ih r2

theorem obsAt_clone (h : Heap) (n : Nat) (hdom : ∀ e ∈ h, e.1 < n)
    (r : JSRef) (p : List Nat) :
    obsAt (h ++ cloneHeap h n) (shiftRef n r) p = obsAt h r p := by
  unfold obsAt
  rw [readPath_clone h n hdom]
  cases readPath h r p with
  | none => rfl
  | some rr => cases rr <;> rfl

theorem obsAt_agree (n : Nat) (h h2 : Heap)
    (hagree : ∀ b, b < n → mapGet h2 b = mapGet h b)
    (hwf : HeapWF h n) (r : JSRef) (hr : RefBound n r) (p : List Nat) :
    obsAt h2 r p = obsAt h r p := by
  unfold obsAt
  rw [readPath_agree n h h2 hagree hwf p r hr]

theorem mapGet_extend_small (h : Heap) (n b : Nat) (hb : b < n)
    (hdom : ∀ e ∈ h, e.1 < n) :
    mapGet (h ++ cloneHeap h n) b = mapGet h b := by
  cases hget : mapGet h b with
  | some v => exact mapGet_append_left_some _ _ _ _ hget
  | none =>
    rw [mapGet_append_left_none _ _ _ hget, mapGet_cloneHeap_small h n b hb]

theorem writeField_dom (h : Heap) (a f : Nat) (w : JSRef) (n : Nat)
    (hdom : ∀ e ∈ h, e.1 < n) : ∀ e ∈ writeField h a f w, e.1 < n := by
  intro e he
  unfold writeField at he
  simp only [List.mem_map] at he
  obtain ⟨e0, he0, rfl⟩ := he
  by_cases hk : e0.1 = a
  · simpa [hk] using (hk ▸ hdom e0 he0)
  · simpa [hk] using hdom e0 he0

theorem cloneHeap_dom (h : Heap) (n : Nat) (hdom : ∀ e ∈ h, e.1 < n) :
    ∀ e ∈ h ++ cloneHeap h n, e.1 < n + n := by
  intro e he
  rcases List.mem_append.mp he with he1 | he1
  · have := hdom e he1
    omega
  · simp only [cloneHeap, List.mem_map] at he1
    obtain ⟨e0, he0, rfl⟩ := he1
    have := hdom e0 he0
    simpa using by omega

/-! ### The C7 scenario: a fresh insert, a caller-side mutation of the
returned copy, then a second read of the same result-id. -/

/-- The first `handleCache` call (fresh-insert path). -/
def c7FirstCall (s : HeapCacheState) (p : Parser) (reply : JSRef) :
    JSRef × HeapCacheState × Bool :=
  handleCacheHeap s p reply

/-- The state after the caller mutates field `f` of the object at address
`a` — with `s.next ≤ a`, any node of the copy that the first call
returned. -/
def c7MutatedState (s : HeapCacheState) (p : Parser) (reply : JSRef) (a f : Nat)
    (w : JSRef) : HeapCacheState :=
  let s1 := (c7FirstCall s p reply).2.1
  { s1 with heap := writeField s1.heap a f w }

/-- The second `handleCache` call for the same result-id, after the
mutation. -/
def c7SecondCall (s : HeapCacheState) (p : Parser) (reply : JSRef) (a f : Nat)
    (w : JSRef) : JSRef × HeapCacheState × Bool :=
  handleCacheHeap (c7MutatedState s p reply a f w) p reply

instance (h : Heap) (n : Nat) : Decidable (HeapWF h n) := by
  unfold HeapWF
  infer_instance

/-- C7: the caller always receives a fresh deep copy, never the stored
reference, on both the fresh-insert and the hit path; mutating any node of
the object a `handleCache` call returned (every such node sits at an
address at or above the pre-call allocation frontier) does not change the
value a subsequent `handleCache` call for the same result-id returns: the
second call is a hit and observes, along every field path, exactly what
the first call returned before the mutation. -/
theorem claim_C7_clone_isolation (s : HeapCacheState) (p : Parser) (reply : JSRef)
    (hwf : HeapWF s.heap s.next)
    (hmiss : mapGet s.cache (generateCacheKey p.redisArgs) = none)
    (hreply : RefBound s.next reply)
    (a f : Nat) (w : JSRef) (ha : s.next ≤ a) :
    (c7FirstCall s p reply).2.2 = true ∧
    (c7SecondCall s p reply a f w).2.2 = false ∧
    (∀ path, obsAt (c7SecondCall s p reply a f w).2.1.heap
        (c7SecondCall s p reply a f w).1 path
      = obsAt (c7FirstCall s p reply).2.1.heap (c7FirstCall s p reply).1 path) ∧
    (∀ a0, reply = JSRef.addr a0 →
      (c7FirstCall s p reply).1 ≠ reply ∧ (c7SecondCall s p reply a f w).1 ≠ reply) := by
  have hdom : ∀ e ∈ s.heap, e.1 < s.next := fun e he => (hwf e he).1
  have o1eq : c7FirstCall s p reply
      = (shiftRef s.next reply,
         { cache := mapSet s.cache (generateCacheKey p.redisArgs) reply,
           keyToCacheKeys :=
             registerKeys s.keyToCacheKeys (generateCacheKey p.redisArgs) p.keys,
           heap := s.heap ++ cloneHeap s.heap s.next,
           next := s.next + s.next }, true) := by
    simp [c7FirstCall, handleCacheHeap, hmiss, structuredCloneH]
  have s2eq : c7MutatedState s p reply a f w
      = { cache := mapSet s.cache (generateCacheKey p.redisArgs) reply,
          keyToCacheKeys :=
            registerKeys s.keyToCacheKeys (generateCacheKey p.redisArgs) p.keys,
          heap := writeField (s.heap ++ cloneHeap s.heap s.next) a f w,
          next := s.next + s.next } := by
    rw [c7MutatedState, o1eq]
  have hhit : mapGet (mapSet s.cache (generateCacheKey p.redisArgs) reply)
      (generateCacheKey p.redisArgs) = some reply := mapGet_mapSet_self _ _ _
  have o2eq : c7SecondCall s p reply a f w
      = (shiftRef (s.next + s.next) reply,
         { cache := mapSet s.cache (generateCacheKey p.redisArgs) reply,
           keyToCacheKeys :=
             registerKeys s.keyToCacheKeys (generateCacheKey p.redisArgs) p.keys,
           heap := writeField (s.heap ++ cloneHeap s.heap s.next) a f w
             ++ cloneHeap (writeField (s.heap ++ cloneHeap s.heap s.next) a f w)
                  (s.next + s.next),
           next := (s.next + s.next) + (s.next + s.next) }, false) := by
    rw [c7SecondCall, s2eq]
    simp [handleCacheHeap, hhit, structuredCloneH]
  -- the mutated heap agrees with the original below the old frontier
  have hagree : ∀ b, b < s.next →
      mapGet (writeField (s.heap ++ cloneHeap s.heap s.next) a f w) b = mapGet s.heap b := by
    intro b hb
    rw [mapGet_writeField_ne _ _ _ _ _ (by omega : b ≠ a)]
    exact mapGet_extend_small s.heap s.next b hb hdom
  have hdom2 : ∀ e ∈ writeField (s.heap ++ cloneHeap s.heap s.next) a f w,
      e.1 < s.next + s.next :=
    writeField_dom _ a f w _ (cloneHeap_dom s.heap s.next hdom)
  refine ⟨by rw [o1eq], by rw [o2eq], ?_, ?_⟩
  · intro path
    rw [o1eq, o2eq]
    calc obsAt (writeField (s.heap ++ cloneHeap s.heap s.next) a f w
            ++ cloneHeap (writeField (s.heap ++ cloneHeap s.heap s.next) a f w)
                 (s.next + s.next))
          (shiftRef (s.next + s.next) reply) path
        = obsAt (writeField (s.heap ++ cloneHeap s.heap s.next) a f w) reply path :=
          obsAt_clone _ _ hdom2 reply path
      _ = obsAt s.heap reply path := obsAt_agree s.next s.heap _ hagree hwf reply hreply path
      _ = obsAt (s.heap ++ cloneHeap s.heap s.next) (shiftRef s.next reply) path :=
          (obsAt_clone s.heap s.next hdom reply path).symm
  · intro a0 hr
    subst hr
    have ha0 : a0 < s.next := hreply
    constructor
    · rw [o1eq]
      simp only [shiftRef]
      intro hcontra
      have := congrArg (fun x => match x with | JSRef.addr b => b | JSRef.prim _ => 0) hcontra
      simp at this
      omega
    · rw [o2eq]
      simp only [shiftRef]
      intro hcontra
      have := congrArg (fun x => match x with | JSRef.addr b => b | JSRef.prim _ => 0) hcontra
      simp at this
      omega

/-- Witness for C7: one stored object `{0: 7}` at address 0, frontier 1;
the first call inserts and returns a copy; the caller overwrites field 0
of the copy (address 1) with the primitive 9; the second call still
observes the primitive 7 at field path `[0]`, exactly as the first call
did, and neither call returned the stored reference. -/
theorem claim_C7_clone_isolation_witness :
    (c7FirstCall ⟨[], [], [(0, [(0, JSRef.prim 7)])], 1⟩ ⟨[['a']], [['a']]⟩
        (JSRef.addr 0)).2.2 = true ∧
    (c7SecondCall ⟨[], [], [(0, [(0, JSRef.prim 7)])], 1⟩ ⟨[['a']], [['a']]⟩
        (JSRef.addr 0) 1 0 (JSRef.prim 9)).2.2 = false ∧
    obsAt (c7SecondCall ⟨[], [], [(0, [(0, JSRef.prim 7)])], 1⟩ ⟨[['a']], [['a']]⟩
          (JSRef.addr 0) 1 0 (JSRef.prim 9)).2.1.heap
        (c7SecondCall ⟨[], [], [(0, [(0, JSRef.prim 7)])], 1⟩ ⟨[['a']], [['a']]⟩
          (JSRef.addr 0) 1 0 (JSRef.prim 9)).1 [0]
      = obsAt (c7FirstCall ⟨[], [], [(0, [(0, JSRef.prim 7)])], 1⟩ ⟨[['a']], [['a']]⟩
          (JSRef.addr 0)).2.1.heap
        (c7FirstCall ⟨[], [], [(0, [(0, JSRef.prim 7)])], 1⟩ ⟨[['a']], [['a']]⟩
          (JSRef.addr 0)).1 [0] ∧
    (c7FirstCall ⟨[], [], [(0, [(0, JSRef.prim 7)])], 1⟩ ⟨[['a']], [['a']]⟩
        (JSRef.addr 0)).1 ≠ JSRef.addr 0 := by
  obtain ⟨h1, h2, h3, h4⟩ := claim_C7_clone_isolation
    ⟨[], [], [(0, [(0, JSRef.prim 7)])], 1⟩ ⟨[['a']], [['a']]⟩ (JSRef.addr 0)
    (by decide) rfl (by decide) 1 0 (JSRef.prim 9) (by decide)
  exact ⟨h1, h2, h3 [0], (h4 0 rfl).1⟩

/-! ## The claims -/

/-- C1 (counterexample): the claimed reverse direction of the consistency
invariant — no reverse-index set contains a result-id absent from the
forward map — is false. After inserting one result under source keys
`"a"` and `"b"` and then invalidating `"a"`, the result is gone from the
forward map but `"b"`'s reverse-index set still contains its result-id
`"1_a"`. -/
theorem claim_C1_counterexample :
    ¬ (∀ (k : List Char) (deps : List (List Char)),
        mapGet (run (initState Nat false)
          [(Op.handle ⟨[['a']], [['a'], ['b']]⟩ (Except.ok 0) id 0 : Op Nat Nat Nat),
           Op.invalidate (some ['a'])]).keyToCacheKeys k = some deps →
        ∀ ck ∈ deps,
          mapHas (run (initState Nat false)
            [(Op.handle ⟨[['a']], [['a'], ['b']]⟩ (Except.ok 0) id 0 : Op Nat Nat Nat),
             Op.invalidate (some ['a'])]).cache ck = true) := by
  intro hall
  have h := hall ['b'] [['1', '_', 'a']] (by decide) ['1', '_', 'a'] (by decide)
  exact absurd h (by decide)

/-- C1 (amended): after every finite sequence of operations from the empty
cache, the forward direction of the consistency invariant holds — every
result-id in the forward map is recorded in the instrumented ghost map
with the source keys of its inserting read-miss, and each of those keys
still has a reverse-index entry whose set contains the result-id. (The
reverse direction fails: a reverse-index set may retain result-ids already
removed from the forward map by an invalidation of a different key.) -/
theorem claim_C1_forward_consistency {V E R : Type} (b : Bool) (ops : List (Op V E R)) :
    ForwardConsistent (grun (initState V b, []) ops).1 (grun (initState V b, []) ops).2 := by
  apply grun_preserves
  constructor
  · intro ck hck
    simp [initState, mapHas, mapGet] at hck
  · intro ck ks hks
    simp [mapGet] at hks

/-- Witness for C1 (amended) after one insertion under keys `"a"`, `"b"`. -/
theorem claim_C1_forward_consistency_witness :
    mapHas (grun (initState Nat false, [])
        [(Op.handle ⟨[['a']], [['a'], ['b']]⟩ (Except.ok 0) id 0 : Op Nat Nat Nat)]).1.cache
      ['1', '_', 'a'] = true ∧
    (∃ deps, mapGet (grun (initState Nat false, [])
        [(Op.handle ⟨[['a']], [['a'], ['b']]⟩ (Except.ok 0) id 0 : Op Nat Nat Nat)]
        ).1.keyToCacheKeys ['a'] = some deps ∧ ['1', '_', 'a'] ∈ deps) := by
  have h := (claim_C1_forward_consistency false
      [(Op.handle ⟨[['a']], [['a'], ['b']]⟩ (Except.ok 0) id 0 : Op Nat Nat Nat)]).2
    ['1', '_', 'a'] [['a'], ['b']] (by decide)
  exact ⟨h.1, h.2 ['a'] (by decide)⟩

/-- C2: `generateCacheKey` is injective on ordered argument lists — two
distinct ordered lists of argument strings (zero-length arguments and
arguments containing the separator `'_'` included) always produce
different cache keys; in particular `["ab","c"]` and `["a","bc"]` yield
different keys. -/
theorem claim_C2_generateCacheKey_injective :
    (∀ xs ys : List (List Char), generateCacheKey xs = generateCacheKey ys → xs = ys) ∧
    generateCacheKey [['a', 'b'], ['c']] ≠ generateCacheKey [['a'], ['b', 'c']] := by
  refine ⟨generateCacheKey_inj, ?_⟩
  intro h
  have := generateCacheKey_inj _ _ h
  simp at this

/-- Witness for C2 at a concrete input. -/
theorem claim_C2_generateCacheKey_injective_witness :
    ([['a'], []] : List (List Char)) = [['a'], []] :=
  claim_C2_generateCacheKey_injective.1 [['a'], []] [['a'], []] (by decide)

/-- C3: starting from a state in which the requested key is absent, a
`handleCache` call whose remote execution succeeds invokes the remote
function and returns the transformed reply; every subsequent `handleCache`
call with the same ordered argument list (with no invalidation, clear,
onError or onClose in between) does not invoke its remote function and
returns a value equal to the one the first call returned. -/
theorem claim_C3_first_miss_then_hits {V E R : Type} (s0 : CacheState V) (p : Parser)
    (r : R) (tr : R → V) (t : Nat)
    (rest : List (Parser × Except E R × (R → V) × Nat))
    (hmiss : mapGet s0.cache (generateCacheKey p.redisArgs) = none)
    (hargs : ∀ c ∈ rest, c.1.redisArgs = p.redisArgs) :
    (handleCache s0 p (Except.ok r : Except E R) tr t).fnCalled = true ∧
    (handleCache s0 p (Except.ok r : Except E R) tr t).result = Except.ok (tr r) ∧
    (runHandles (handleCache s0 p (Except.ok r : Except E R) tr t).state rest).1
      = rest.map (fun _ => (Except.ok (tr r), false)) := by
  rw [handleCache_miss_ok s0 p r tr t hmiss]
  refine ⟨rfl, rfl, ?_⟩
  apply runHandles_all_hits rest _ (generateCacheKey p.redisArgs) (tr r)
  · exact mapGet_mapSet_self _ _ _
  · intro c hc
    rw [hargs c hc]

/-- Witness for C3: a cold cache, one successful read, then one repeated
read whose own remote execution would fail — it is never invoked, and the
cached value is returned. -/
theorem claim_C3_first_miss_then_hits_witness :
    (handleCache (initState Nat false) ⟨[['a']], [['a']]⟩ (Except.ok 5 : Except Nat Nat)
        id 3).fnCalled = true ∧
    (handleCache (initState Nat false) ⟨[['a']], [['a']]⟩ (Except.ok 5 : Except Nat Nat)
        id 3).result = Except.ok 5 ∧
    (runHandles (handleCache (initState Nat false) ⟨[['a']], [['a']]⟩
        (Except.ok 5 : Except Nat Nat) id 3).state
        [(⟨[['a']], [['a']]⟩, Except.error 9, id, 7)]).1
      = [(Except.ok 5, false)] :=
  claim_C3_first_miss_then_hits (initState Nat false) ⟨[['a']], [['a']]⟩ 5 id 3
    [(⟨[['a']], [['a']]⟩, Except.error 9, id, 7)] rfl (by decide)

/-- C4: with results R1 cached under source keys `{A}`, R2 under `{A,B}`
and R3 under `{B}` (three read-miss insertions from the empty cache, with
distinct argument lists and `A ≠ B`), `invalidate A` removes R1 and R2
from the forward map, R3 remains, and a subsequent `handleCache` call with
R3's arguments is a hit: the remote execution function is not invoked and
the cached value is returned. -/
theorem claim_C4_precise_invalidation {V E : Type} (b : Bool) (p1 p2 p3 : Parser)
    (A B : List Char) (v1 v2 v3 : V) (t1 t2 t3 : Nat)
    (fn4 : Except E V) (tr4 : V → V) (t4 : Nat)
    (hk1 : p1.keys = [A]) (hk2 : p2.keys = [A, B]) (hk3 : p3.keys = [B]) (hAB : A ≠ B)
    (h12 : p1.redisArgs ≠ p2.redisArgs) (h13 : p1.redisArgs ≠ p3.redisArgs)
    (h23 : p2.redisArgs ≠ p3.redisArgs)
    (s1 s2 s3 s4 : CacheState V)
    (hs1 : s1 = (handleCache (initState V b) p1 (Except.ok v1 : Except E V) id t1).state)
    (hs2 : s2 = (handleCache s1 p2 (Except.ok v2 : Except E V) id t2).state)
    (hs3 : s3 = (handleCache s2 p3 (Except.ok v3 : Except E V) id t3).state)
    (hs4 : s4 = (invalidate s3 (some A)).1) :
    mapHas s4.cache (generateCacheKey p1.redisArgs) = false ∧
    mapHas s4.cache (generateCacheKey p2.redisArgs) = false ∧
    mapHas s4.cache (generateCacheKey p3.redisArgs) = true ∧
    (handleCache s4 p3 fn4 tr4 t4).fnCalled = false ∧
    (handleCache s4 p3 fn4 tr4 t4).result = Except.ok v3 := by
  have hc12 : generateCacheKey p1.redisArgs ≠ generateCacheKey p2.redisArgs :=
    fun hh => h12 (generateCacheKey_inj _ _ hh)
  have hc13 : generateCacheKey p1.redisArgs ≠ generateCacheKey p3.redisArgs :=
    fun hh => h13 (generateCacheKey_inj _ _ hh)
  have hc23 : generateCacheKey p2.redisArgs ≠ generateCacheKey p3.redisArgs :=
    fun hh => h23 (generateCacheKey_inj _ _ hh)
  -- first insertion
  have hm1 : mapGet (initState V b).cache (generateCacheKey p1.redisArgs) = none := rfl
  have hcache1 : s1.cache = mapSet [] (generateCacheKey p1.redisArgs) v1 := by
    rw [hs1, handleCache_miss_ok _ _ _ _ _ hm1]
    rfl
  have hk2c1 : s1.keyToCacheKeys
      = registerKeys [] (generateCacheKey p1.redisArgs) p1.keys := by
    rw [hs1, handleCache_miss_ok _ _ _ _ _ hm1]
    rfl
  -- second insertion
  have hm2 : mapGet s1.cache (generateCacheKey p2.redisArgs) = none := by
    rw [hcache1, mapGet_mapSet_ne _ _ _ _ (Ne.symm hc12)]
    rfl
  have hcache2 : s2.cache
      = mapSet (mapSet [] (generateCacheKey p1.redisArgs) v1)
          (generateCacheKey p2.redisArgs) v2 := by
    rw [hs2, handleCache_miss_ok _ _ _ _ _ hm2, hcache1]
    rfl
  have hk2c2 : s2.keyToCacheKeys
      = registerKeys (registerKeys [] (generateCacheKey p1.redisArgs) p1.keys)
          (generateCacheKey p2.redisArgs) p2.keys := by
    rw [hs2, handleCache_miss_ok _ _ _ _ _ hm2, hk2c1]
  -- third insertion
  have hm3 : mapGet s2.cache (generateCacheKey p3.redisArgs) = none := by
    rw [hcache2, mapGet_mapSet_ne _ _ _ _ (Ne.symm hc23),
      mapGet_mapSet_ne _ _ _ _ (Ne.symm hc13)]
    rfl
  have hcache3 : s3.cache
      = mapSet (mapSet (mapSet [] (generateCacheKey p1.redisArgs) v1)
          (generateCacheKey p2.redisArgs) v2) (generateCacheKey p3.redisArgs) v3 := by
    rw [hs3, handleCache_miss_ok _ _ _ _ _ hm3, hcache2]
    rfl
  have hk2c3 : s3.keyToCacheKeys
      = registerKeys (registerKeys (registerKeys []
          (generateCacheKey p1.redisArgs) p1.keys)
          (generateCacheKey p2.redisArgs) p2.keys)
          (generateCacheKey p3.redisArgs) p3.keys := by
    rw [hs3, handleCache_miss_ok _ _ _ _ _ hm3, hk2c2]
  -- the reverse-index set of A after the three insertions
  have hAnotB : A ∉ [B] := by simp [hAB]
  have hmA1 : mapGet (registerKeys [] (generateCacheKey p1.redisArgs) p1.keys) A
      = some [generateCacheKey p1.redisArgs] := by
    rw [hk1, registerKeys_cons, registerKeys_nil, mapGet_addKeyIndex_self]
    simp [mapGet, setAdd]
  have hmA2 : mapGet (registerKeys (registerKeys []
        (generateCacheKey p1.redisArgs) p1.keys)
        (generateCacheKey p2.redisArgs) p2.keys) A
      = some [generateCacheKey p1.redisArgs, generateCacheKey p2.redisArgs] := by
    rw [hk2, registerKeys_cons,
      mapGet_registerKeys_not_mem _ _ _ _ hAnotB,
      mapGet_addKeyIndex_self, hmA1]
    simp [setAdd, Ne.symm hc12]
  have hA : mapGet s3.keyToCacheKeys A
      = some [generateCacheKey p1.redisArgs, generateCacheKey p2.redisArgs] := by
    rw [hk2c3, hk3, mapGet_registerKeys_not_mem _ _ _ _ hAnotB, hmA2]
  -- the invalidation
  have hcache4 : s4.cache
      = [generateCacheKey p1.redisArgs, generateCacheKey p2.redisArgs].foldl
          (fun c ck => mapDelete c ck) s3.cache := by
    rw [hs4, invalidate_some_found s3 A _ hA]
    rfl
  have hget4 : mapGet s4.cache (generateCacheKey p3.redisArgs) = some v3 := by
    rw [hcache4, mapGet_foldl_mapDelete,
      if_neg (by simp [Ne.symm hc13, Ne.symm hc23] :
        ¬generateCacheKey p3.redisArgs
          ∈ [generateCacheKey p1.redisArgs, generateCacheKey p2.redisArgs]),
      hcache3, mapGet_mapSet_self]
  refine ⟨?_, ?_, ?_, ?_, ?_⟩
  · unfold mapHas
    rw [hcache4, mapGet_foldl_mapDelete, if_pos (by simp)]
    rfl
  · unfold mapHas
    rw [hcache4, mapGet_foldl_mapDelete, if_pos (by simp)]
    rfl
  · unfold mapHas
    rw [hget4]
    rfl
  · rw [handleCache_hit s4 p3 fn4 tr4 t4 v3 hget4]
  · rw [handleCache_hit s4 p3 fn4 tr4 t4 v3 hget4]

/-- The concrete scenario for the C4 witness: R1 from `GET a` under
`{"a"}`, R2 from `MGET a b` under `{"a","b"}`, R3 from `GET b` under
`{"b"}`, then `invalidate "a"`. -/
def c4S1 : CacheState Nat :=
  (handleCache (initState Nat true) ⟨[['a']], [['a']]⟩
    (Except.ok 1 : Except Nat Nat) id 0).state

/-- Second insertion of the C4 witness scenario. -/
def c4S2 : CacheState Nat :=
  (handleCache c4S1 ⟨[['a'], ['b']], [['a'], ['b']]⟩
    (Except.ok 2 : Except Nat Nat) id 0).state

/-- Third insertion of the C4 witness scenario. -/
def c4S3 : CacheState Nat :=
  (handleCache c4S2 ⟨[['b']], [['b']]⟩ (Except.ok 3 : Except Nat Nat) id 0).state

/-- State of the C4 witness scenario after `invalidate "a"`. -/
def c4S4 : CacheState Nat := (invalidate c4S3 (some ['a'])).1

/-- Witness for C4 on the concrete scenario. -/
theorem claim_C4_precise_invalidation_witness :
    mapHas c4S4.cache (generateCacheKey [['a']]) = false ∧
    mapHas c4S4.cache (generateCacheKey [['a'], ['b']]) = false ∧
    mapHas c4S4.cache (generateCacheKey [['b']]) = true ∧
    (handleCache c4S4 ⟨[['b']], [['b']]⟩ (Except.error 7 : Except Nat Nat)
      id 0).fnCalled = false ∧
    (handleCache c4S4 ⟨[['b']], [['b']]⟩ (Except.error 7 : Except Nat Nat)
      id 0).result = Except.ok 3 :=
  claim_C4_precise_invalidation true ⟨[['a']], [['a']]⟩ ⟨[['a'], ['b']], [['a'], ['b']]⟩
    ⟨[['b']], [['b']]⟩ ['a'] ['b'] 1 2 3 0 0 0 (Except.error 7) id 0
    rfl rfl rfl (by decide) (by decide) (by decide) (by decide)
    c4S1 c4S2 c4S3 c4S4 rfl rfl rfl rfl

/-- C5 (counterexample): with statistics enabled, the eviction counter does
not equal the number of forward-map entries removed by invalidations.
Insert one result under source keys `"a"` and `"b"`; invalidate `"a"`
(removes the one entry, counts 1); invalidate `"b"` (its reverse-index set
still holds the stale result-id, so the counter is charged 1 more while
nothing is removed). The counter reads 2, but only 1 entry was ever
removed. -/
theorem claim_C5_counterexample :
    (stats (run (initState Nat true)
        [(Op.handle ⟨[['a']], [['a'], ['b']]⟩ (Except.ok 0) id 0 : Op Nat Nat Nat),
         Op.invalidate (some ['a']), Op.invalidate (some ['b'])])).evictionCount = 2 ∧
    removedByInvalidations (initState Nat true)
        [(Op.handle ⟨[['a']], [['a'], ['b']]⟩ (Except.ok 0) id 0 : Op Nat Nat Nat),
         Op.invalidate (some ['a']), Op.invalidate (some ['b'])] = 1 ∧
    (stats (run (initState Nat true)
        [(Op.handle ⟨[['a']], [['a'], ['b']]⟩ (Except.ok 0) id 0 : Op Nat Nat Nat),
         Op.invalidate (some ['a']), Op.invalidate (some ['b'])])).evictionCount
      ≠ removedByInvalidations (initState Nat true)
        [(Op.handle ⟨[['a']], [['a'], ['b']]⟩ (Except.ok 0) id 0 : Op Nat Nat Nat),
         Op.invalidate (some ['a']), Op.invalidate (some ['b'])] := by
  refine ⟨by decide, by decide, by decide⟩

/-- C5 (amended): with statistics disabled, `stats()` returns the all-zero
record after any operation sequence (stable shape); with statistics
enabled, the hit and miss counters are exactly the numbers of cache hits
and misses, and the eviction counter equals the sum of the eviction
amounts `invalidate` charges — the forward-map size for a global flush and
the reverse-index set size for a specific key, which can exceed the number
of forward-map entries actually removed when the set holds stale
result-ids. -/
theorem claim_C5_statistics {V E R : Type} :
    (∀ ops : List (Op V E R), stats (run (initState V false) ops) = zeroStats) ∧
    (∀ ops : List (Op V E R),
      (stats (run (initState V true) ops)).hitCount = countHits (initState V true) ops ∧
      (stats (run (initState V true) ops)).missCount = countMisses (initState V true) ops ∧
      (stats (run (initState V true) ops)).evictionCount
        = countEvictions (initState V true) ops) := by
  constructor
  · intro ops
    unfold stats
    rw [run_statsOpt_none ops _ rfl]
    rfl
  · intro ops
    obtain ⟨st2, h2, hh, hm, he⟩ := run_statsOpt_some ops (initState V true) zeroStats rfl
    unfold stats
    rw [h2]
    exact ⟨by simpa [zeroStats] using hh, by simpa [zeroStats] using hm,
      by simpa [zeroStats] using he⟩

/-- C6: a `handleCache` miss whose remote execution throws propagates the
same error unchanged, leaves the forward map, the reverse index, and
`size()` exactly as before (no partial insert), reports that the remote
function ran, and — statistics present or not — records exactly one miss,
one load failure, no load success, and the elapsed load time. -/
theorem claim_C6_error_path {V E R : Type} (s : CacheState V) (p : Parser) (e : E)
    (tr : R → V) (t : Nat)
    (hmiss : mapGet s.cache (generateCacheKey p.redisArgs) = none) :
    (handleCache s p (Except.error e : Except E R) tr t).result = Except.error e ∧
    (handleCache s p (Except.error e : Except E R) tr t).state.cache = s.cache ∧
    (handleCache s p (Except.error e : Except E R) tr t).state.keyToCacheKeys
      = s.keyToCacheKeys ∧
    size (handleCache s p (Except.error e : Except E R) tr t).state = size s ∧
    (handleCache s p (Except.error e : Except E R) tr t).fnCalled = true ∧
    (handleCache s p (Except.error e : Except E R) tr t).state.statsOpt
      = s.statsOpt.map (fun st =>
          { st with missCount := st.missCount + 1,
                    loadFailureCount := st.loadFailureCount + 1,
                    totalLoadTime := st.totalLoadTime + t }) := by
  rw [handleCache_miss_error s p e tr t hmiss]
  refine ⟨rfl, rfl, rfl, rfl, rfl, ?_⟩
  cases hso : s.statsOpt with
  | none => simp [addLoadTime, incLoadFailure, incMiss, hso]
  | some st => simp [addLoadTime, incLoadFailure, incMiss, hso]

/-- Witness for C6: statistics enabled, the remote call fails with error
42 and elapsed time 5. -/
theorem claim_C6_error_path_witness :
    (handleCache (initState Nat true) ⟨[['a']], [['a']]⟩ (Except.error 42 : Except Nat Nat)
        id 5).result = Except.error 42 ∧
    (handleCache (initState Nat true) ⟨[['a']], [['a']]⟩ (Except.error 42 : Except Nat Nat)
        id 5).state.cache = (initState Nat true).cache ∧
    (handleCache (initState Nat true) ⟨[['a']], [['a']]⟩ (Except.error 42 : Except Nat Nat)
        id 5).state.keyToCacheKeys = (initState Nat true).keyToCacheKeys ∧
    size (handleCache (initState Nat true) ⟨[['a']], [['a']]⟩
        (Except.error 42 : Except Nat Nat) id 5).state = size (initState Nat true) ∧
    (handleCache (initState Nat true) ⟨[['a']], [['a']]⟩ (Except.error 42 : Except Nat Nat)
        id 5).fnCalled = true ∧
    (handleCache (initState Nat true) ⟨[['a']], [['a']]⟩ (Except.error 42 : Except Nat Nat)
        id 5).state.statsOpt
      = (initState Nat true).statsOpt.map (fun st =>
          { st with missCount := st.missCount + 1,
                    loadFailureCount := st.loadFailureCount + 1,
                    totalLoadTime := st.totalLoadTime + 5 }) :=
  claim_C6_error_path (initState Nat true) ⟨[['a']], [['a']]⟩ 42 id 5 rfl

/-- C8: `invalidate` on a specific key that has no reverse-index entry is a
total no-op on the state — both maps and the statistics are exactly
unchanged — and still emits exactly one `invalidate` notification carrying
that key. -/
theorem claim_C8_unknown_key_invalidation {V : Type} (s : CacheState V) (k : List Char)
    (h : mapGet s.keyToCacheKeys k = none) :
    invalidate s (some k) = (s, [some k]) :=
  invalidate_some_missing s k h

/-- Witness for C8 at a concrete key with no cached dependents. -/
theorem claim_C8_unknown_key_invalidation_witness :
    invalidate (initState Nat false) (some ['x']) = (initState Nat false, [some ['x']]) :=
  claim_C8_unknown_key_invalidation (initState Nat false) ['x'] rfl

/-- C9 (code bug evidence): the constructor of `SimpleClientSideCache`
reads only `options.enableStat`. Whatever `CacheMapClass` / `KeyMapClass`
members the options object carries — including values with no map
behaviour at all — construction succeeds and yields the default state with
native maps; no validation error is ever raised, at construction time or
later. This contradicts the repository's own tests
(test/test-custom-map.js expects a `TypeError`), its changelog (0.3.0:
"Type validation: classes must extend native Map"), and the claim. -/
theorem claim_C9_constructor_ignores_map_options (V μ : Type) :
    ∀ options : ConstructorOptions μ,
      construct V μ options = Except.ok (initState V options.enableStat) :=
  fun _ => rfl

/-- C10: a `handleCache` hit mutates neither the forward map nor the
reverse index nor the stored value, does not invoke the remote execution
function, and returns the stored value. -/
theorem claim_C10_hit_no_mutation {V E R : Type} (s : CacheState V) (p : Parser)
    (fn : Except E R) (tr : R → V) (t : Nat) (v : V)
    (h : mapGet s.cache (generateCacheKey p.redisArgs) = some v) :
    (handleCache s p fn tr t).state.cache = s.cache ∧
    (handleCache s p fn tr t).state.keyToCacheKeys = s.keyToCacheKeys ∧
    (handleCache s p fn tr t).fnCalled = false ∧
    (handleCache s p fn tr t).result = Except.ok v := by
  rw [handleCache_hit s p fn tr t v h]
  exact ⟨rfl, rfl, rfl, rfl⟩

/-- Witness for C10 on a one-entry cache. -/
theorem claim_C10_hit_no_mutation_witness :
    (handleCache (⟨[(['1', '_', 'a'], 5)], [], none⟩ : CacheState Nat) ⟨[['a']], [['a']]⟩
        (Except.error 3 : Except Nat Nat) id 2).state.cache = [(['1', '_', 'a'], 5)] ∧
    (handleCache (⟨[(['1', '_', 'a'], 5)], [], none⟩ : CacheState Nat) ⟨[['a']], [['a']]⟩
        (Except.error 3 : Except Nat Nat) id 2).state.keyToCacheKeys = [] ∧
    (handleCache (⟨[(['1', '_', 'a'], 5)], [], none⟩ : CacheState Nat) ⟨[['a']], [['a']]⟩
        (Except.error 3 : Except Nat Nat) id 2).fnCalled = false ∧
    (handleCache (⟨[(['1', '_', 'a'], 5)], [], none⟩ : CacheState Nat) ⟨[['a']], [['a']]⟩
        (Except.error 3 : Except Nat Nat) id 2).result = Except.ok 5 :=
  claim_C10_hit_no_mutation (⟨[(['1', '_', 'a'], 5)], [], none⟩ : CacheState Nat)
    ⟨[['a']], [['a']]⟩ (Except.error 3) id 2 5 (by decide)

end SimpleCache
